import Mathlib

/-! cs261: a binary search tree and an array-backed priority queue

A shallow embedding of `assignment-4-johnand4/pq.c` (namespace `PQ`) and of
`assignment-3-johnand4/bst.c` (namespace `BST`), followed by the properties
established about them.

Conventions of the embedding.

* C `int` values (priorities, keys, array indices, sizes) are `Int`; no arithmetic
  that could overflow is performed on priorities or keys, and index arithmetic
  stays far below the width of `int` for every array that fits in memory.
* `void*` payloads are an arbitrary type `α`.
* A dereference of `NULL`, an out-of-range array access and a pop of an empty
  stack are faults: the operation returns `none`.
* `while` loops that are not structurally recursive carry a fuel argument, and the
  entry points supply a bound on the number of passes of the loop.
-/

namespace PQ

/-! ## The dynamic array collaborator -/

/-- Modelled from the spec: `size(handle)` of the growable-array collaborator
(`dynarray.c` is not among the sources); the array is the list of its elements. -/
def dynarray_size {β : Type} (a : List β) : Int := a.length

/-- Modelled from the spec: `get(handle, index)` of the growable-array collaborator
(`dynarray.c` is not among the sources). The operation assumes `0 <= index < size`;
an index out of range is a fault. -/
def dynarray_get {β : Type} (a : List β) (index : Int) : Option β :=
  if 0 ≤ index ∧ index < dynarray_size a then a[index.toNat]? else none

/-- Modelled from the spec: `insert_at_end(handle, ptr)` of the growable-array
collaborator (`dynarray.c` is not among the sources). -/
def dynarray_insert {β : Type} (a : List β) (x : β) : List β := a ++ [x]

/-- Modelled from the spec: `remove(handle, index)` of the growable-array collaborator
(`dynarray.c` is not among the sources): the later elements shift down by one.
An index out of range is a fault. -/
def dynarray_remove {β : Type} (a : List β) (index : Int) : Option (List β) :=
  if 0 ≤ index ∧ index < dynarray_size a then some (a.eraseIdx index.toNat) else none

/-- Modelled from the spec: `create()` of the growable-array collaborator
(`dynarray.c` is not among the sources). -/
def dynarray_create {β : Type} : List β := []

/-! ## pq.c -/

/-- The entry `struct node { void* value; int priority; }`. -/
structure node (α : Type) where
  value : α
  priority : Int
deriving DecidableEq, Repr

/-- The queue `struct pq { struct dynarray* array; }`. The array holds pointers to
heap-allocated nodes, one per slot and never shared, so the embedding stores the
nodes themselves. -/
structure pq (α : Type) where
  array : List (node α)
deriving DecidableEq, Repr

/-- `pq_create`: a queue over an empty array. -/
def pq_create {α : Type} : pq α := ⟨dynarray_create⟩

/-- `pq_isempty`: 0 when the array size is positive, 1 otherwise. -/
def pq_isempty {α : Type} (q : pq α) : Int :=
  if dynarray_size q.array > 0 then 0 else 1

/-- `swap_nodes(one, two)`: exchanges the contents (value and priority) of the two
nodes and leaves their slots in the array alone. The two pointers are the nodes in
slots `one` and `two`; when both name the same slot nothing changes. -/
def swap_nodes {α : Type} (a : List (node α)) (one two : Int) : List (node α) :=
  match dynarray_get a one, dynarray_get a two with
  | some x, some y =>
    (a.set one.toNat ⟨y.value, y.priority⟩).set two.toNat ⟨x.value, x.priority⟩
  | _, _ => a

/-- The loop of `percolate_up`, with `curr` the node in slot `index` and `parent` the
node in slot `(index-1)/2` (C division truncates toward zero, `Int.tdiv`). -/
def percolate_up_loop {α : Type} : Nat → List (node α) → Int → Option (List (node α))
  | 0, _, _ => none
  | fuel + 1, a, index =>
    match dynarray_get a index, dynarray_get a (Int.tdiv (index - 1) 2) with
    | some curr, some parent =>
      if parent.priority > curr.priority then
        percolate_up_loop fuel (swap_nodes a index (Int.tdiv (index - 1) 2))
          (Int.tdiv (index - 1) 2)
      else some a
    | _, _ => none

/-- `percolate_up(pq, index)`. Every pass of the loop but the last lowers `index`, so
`index + 1` passes are enough. -/
def percolate_up {α : Type} (q : pq α) (index : Int) : Option (pq α) :=
  (percolate_up_loop (index.toNat + 1) q.array index).map pq.mk

/-- `pq_insert(pq, value, priority)`: append a new node, then percolate it up from
the last slot. -/
def pq_insert {α : Type} (q : pq α) (value : α) (priority : Int) : Option (pq α) :=
  let a := dynarray_insert q.array ⟨value, priority⟩
  percolate_up ⟨a⟩ (dynarray_size a - 1)

/-- `pq_first`: the value of the node in slot 0. -/
def pq_first {α : Type} (q : pq α) : Option α :=
  (dynarray_get q.array 0).map node.value

/-- `pq_first_priority`: the priority of the node in slot 0. -/
def pq_first_priority {α : Type} (q : pq α) : Option Int :=
  (dynarray_get q.array 0).map node.priority

/-- The loop of `percolate_down`, with `curr` the node in slot `index`: while there
is a left child, swap `curr` with the left child when there is no right child or
`left->priority < right->priority`, and with the right child otherwise; the priority
of `curr` itself is never read. -/
def percolate_down_loop {α : Type} : Nat → List (node α) → Int → Option (List (node α))
  | 0, _, _ => none
  | fuel + 1, a, index =>
    if 2 * index + 1 < dynarray_size a then
      match dynarray_get a (2 * index + 1) with
      | none => none
      | some left =>
        if 2 * index + 2 < dynarray_size a then
          match dynarray_get a (2 * index + 2) with
          | none => none
          | some right =>
            if left.priority < right.priority then
              percolate_down_loop fuel (swap_nodes a index (2 * index + 1)) (2 * index + 1)
            else
              percolate_down_loop fuel (swap_nodes a index (2 * index + 2)) (2 * index + 2)
        else
          percolate_down_loop fuel (swap_nodes a index (2 * index + 1)) (2 * index + 1)
    else some a

/-- `percolate_down(pq, index)`: fetch `curr`, then run the loop. Every pass at least
doubles `index + 1`, so as many passes as the array has slots are enough. -/
def percolate_down {α : Type} (q : pq α) (index : Int) : Option (pq α) :=
  match dynarray_get q.array index with
  | none => none
  | some _ => (percolate_down_loop (q.array.length + 1) q.array index).map pq.mk

/-- `pq_remove_first`: returns the value in slot 0 together with the queue after the
removal. With more than one node, slot 0 and the last slot are swapped, the last
slot is removed and slot 0 is percolated down; with one node, slot 0 is removed. -/
def pq_remove_first {α : Type} (q : pq α) : Option (α × pq α) :=
  match pq_first q with
  | none => none
  | some value =>
    if dynarray_size q.array - 1 > 0 then
      let a := swap_nodes q.array 0 (dynarray_size q.array - 1)
      match dynarray_get a (dynarray_size a - 1) with
      | none => none
      | some _ =>
        match dynarray_remove a (dynarray_size a - 1) with
        | none => none
        | some a' => (percolate_down ⟨a'⟩ 0).map (fun q' => (value, q'))
    else
      match dynarray_get q.array 0 with
      | none => none
      | some _ => (dynarray_remove q.array 0).map (fun a' => (value, ⟨a'⟩))

/-! ## Callers: sequences of operations -/

/-- A sequence of `pq_insert` calls, one per `(value, priority)` pair, in order. -/
def insert_all {α : Type} : pq α → List (α × Int) → Option (pq α)
  | q, [] => some q
  | q, (v, p) :: rest =>
    match pq_insert q v p with
    | none => none
    | some q' => insert_all q' rest

/-- The caller loop `n` times `pq_first_priority` then `pq_remove_first`: the removed
values with the priority each had at the head, and the queue left. -/
def remove_n {α : Type} : Nat → pq α → Option (List (α × Int) × pq α)
  | 0, q => some ([], q)
  | n + 1, q =>
    match pq_first_priority q, pq_remove_first q with
    | some p, some (v, q') =>
      match remove_n n q' with
      | none => none
      | some (out, q'') => some ((v, p) :: out, q'')
    | _, _ => none

/-! ## The min-heap order invariant -/

/-- Priority stored in slot `i` (0 outside the array). -/
def prio {α : Type} (a : List (node α)) (i : Nat) : Int :=
  match a[i]? with
  | some x => x.priority
  | none => 0

/-- Min-heap order: `priority[(i-1)/2] <= priority[i]` for every index `i >= 1`. -/
def heap_ordered {α : Type} (a : List (node α)) : Prop :=
  ∀ i : Nat, i < a.length → 1 ≤ i → prio a ((i - 1) / 2) ≤ prio a i

instance {α : Type} (a : List (node α)) : Decidable (heap_ordered a) := by
  unfold heap_ordered; infer_instance

/-- Heap order everywhere except between slot `k` and its parent; in exchange the
parent of `k` is already below the children of `k`. -/
def heap_except {α : Type} (a : List (node α)) (k : Nat) : Prop :=
  (∀ i : Nat, i < a.length → 1 ≤ i → i ≠ k → prio a ((i - 1) / 2) ≤ prio a i) ∧
  (∀ i : Nat, i < a.length → 1 ≤ i → (i - 1) / 2 = k → 1 ≤ k →
    prio a ((k - 1) / 2) ≤ prio a i)

end PQ

namespace BST

/-! ## The stack collaborator -/

/-- Modelled from the spec: `create()` of the LIFO stack collaborator (`stack.c` is
not among the sources); the stack is the list of its elements, top first. -/
def stack_create {β : Type} : List β := []

/-- Modelled from the spec: `push(handle, ptr)` of the LIFO stack collaborator
(`stack.c` is not among the sources). -/
def stack_push {β : Type} (s : List β) (x : β) : List β := x :: s

/-- Modelled from the spec: `pop(handle)` of the LIFO stack collaborator (`stack.c`
is not among the sources); popping an empty stack is a fault. -/
def stack_pop {β : Type} : List β → Option (β × List β)
  | [] => none
  | x :: s => some (x, s)

/-- Modelled from the spec: `is_empty(handle)` of the LIFO stack collaborator
(`stack.c` is not among the sources), as the C truth value 1 or 0. -/
def stack_isempty {β : Type} : List β → Int
  | [] => 1
  | _ :: _ => 0

/-! ## bst.c: the tree -/

/-- A `struct bst_node*`: either `NULL` or a node with its key, value and two child
links. Nodes are owned by exactly one link, so a pointer is the subtree it leads to. -/
inductive bst_node (α : Type) where
  | NULL : bst_node α
  | mk (key : Int) (value : α) (left right : bst_node α) : bst_node α
deriving DecidableEq, Repr

/-- The tree `struct bst { struct bst_node* root; }`. -/
structure bst (α : Type) where
  root : bst_node α
deriving DecidableEq, Repr

open bst_node

/-- `bst_create`: the root link is `NULL`. -/
def bst_create {α : Type} : bst α := ⟨NULL⟩

/-- `check_node`: the number of nodes below and including `node`. -/
def check_node {α : Type} : bst_node α → Int
  | NULL => 0
  | mk _ _ left right => check_node left + check_node right + 1

/-- `bst_size`. -/
def bst_size {α : Type} (t : bst α) : Int := check_node t.root

/-- `create_node`: a fresh node with both links `NULL`. -/
def create_node {α : Type} (key : Int) (value : α) : bst_node α := mk key value NULL NULL

/-- The descent of `bst_insert` from the link `n`: go left when `key < n->key` and
right otherwise, and store the new node into the first `NULL` link reached (the
link of `p` chosen by the same test `key < p->key`, or the root link). -/
def insert_node {α : Type} : bst_node α → Int → α → bst_node α
  | NULL, key, value => create_node key value
  | mk k v left right, key, value =>
    if key < k then mk k v (insert_node left key value) right
    else mk k v left (insert_node right key value)

/-- `bst_insert`. -/
def bst_insert {α : Type} (t : bst α) (key : Int) (value : α) : bst α :=
  ⟨insert_node t.root key value⟩

/-- The loop of `find_node` from the link `n`: the first node on the descent whose
key equals `key`, or `NULL`. -/
def find_from {α : Type} : bst_node α → Int → bst_node α
  | NULL, _ => NULL
  | mk k v left right, key =>
    if k = key then mk k v left right
    else if key < k then find_from left key
    else find_from right key

/-- `find_node`. -/
def find_node {α : Type} (t : bst α) (key : Int) : bst_node α := find_from t.root key

/-- `bst_get`: the value of the node found, `none` standing for the `NULL` returned
when no node is found. -/
def bst_get {α : Type} (t : bst α) (key : Int) : Option α :=
  match find_node t key with
  | NULL => none
  | mk _ value _ _ => some value

/-! ### bst_remove

After the search loop `n` is the node to remove and `p` its parent. A node of the
tree is named by the links followed from the root to reach it (`true` for `left`),
so `p == NULL` is the empty path, `p == bst->root` is a path of one link, and
`p->left == n` says that the last link of the path is `left`. -/

/-- The search loop of `bst_remove` from the link `n`: the path to the first node
whose key equals `key`; `none` when the loop ends with `n == NULL`. -/
def remove_search {α : Type} : bst_node α → Int → Option (List Bool)
  | NULL, _ => none
  | mk k _ left right, key =>
    if k = key then some []
    else if key < k then (remove_search left key).map (fun path => true :: path)
    else (remove_search right key).map (fun path => false :: path)

/-- The node at the end of a path. -/
def node_at {α : Type} : bst_node α → List Bool → bst_node α
  | n, [] => n
  | NULL, _ :: _ => NULL
  | mk _ _ left right, d :: path => if d then node_at left path else node_at right path

/-- The store `p->left = x` or `p->right = x` into the link at the end of a path. -/
def store_at {α : Type} : bst_node α → List Bool → bst_node α → bst_node α
  | _, [], x => x
  | NULL, _ :: _, _ => NULL
  | mk k v left right, d :: path, x =>
    if d then mk k v (store_at left path x) right else mk k v left (store_at right path x)

/-- The loop `while (s->left != NULL) { ps = s; s = s->left; }` entered at a node with
the given key, value and left link: the key and value of the node `s` it ends on. -/
def successor {α : Type} : Int → α → bst_node α → Int × α
  | k, v, NULL => (k, v)
  | _, _, mk k v left _ => successor k v left

/-- The store `ps->left = s->right` for the leftmost node `s` below a link: the
subtree with `s` replaced by its right subtree. -/
def detach {α : Type} : bst_node α → bst_node α
  | NULL => NULL
  | mk _ _ NULL right => right
  | mk k v (mk k' v' l' r') right => mk k v (detach (mk k' v' l' r')) right

/-- The two-children case of `bst_remove` up to the final test: `s` is the leftmost
node of `n->right`; `s->left = n->left`; and when `s != n->right`,
`ps->left = s->right` and `s->right = n->right`. The result is the node `s`. -/
def splice {α : Type} (nleft nright : bst_node α) : bst_node α :=
  match nright with
  | NULL => NULL
  | mk sk sv NULL sright => mk sk sv nleft sright
  | mk rk rv (mk k v l r) rright =>
    mk (successor k v l).1 (successor k v l).2 nleft (mk rk rv (detach (mk k v l r)) rright)

/-- The test that ends each case of `bst_remove`, storing `x` in place of `n`:
`if (p == bst->root) bst->root = x; else if (p->left == n) p->left = x; else
p->right = x;`. With `p == NULL` the second test dereferences `NULL`, except in the
two-children case, whose first test is `p == bst->root || p == NULL`. -/
def relink {α : Type} (root : bst_node α) (path : List Bool) (x : bst_node α)
    (or_null : Bool) : Option (bst α) :=
  match path with
  | [] => if or_null then some ⟨x⟩ else none
  | [_] => some ⟨x⟩
  | _ :: _ :: _ => some ⟨store_at root path x⟩

/-- `bst_remove`: the tree after the call, or `none` when the call dereferences
`NULL`. -/
def bst_remove {α : Type} (t : bst α) (key : Int) : Option (bst α) :=
  match remove_search t.root key with
  | none => none
  | some path =>
    match node_at t.root path with
    | NULL => none
    | mk _ _ NULL NULL => relink t.root path NULL false
    | mk _ _ NULL (mk rk rv rl rr) => relink t.root path (mk rk rv rl rr) false
    | mk _ _ (mk lk lv ll lr) NULL => relink t.root path (mk lk lv ll lr) false
    | mk _ _ (mk lk lv ll lr) (mk rk rv rl rr) =>
      relink t.root path (splice (mk lk lv ll lr) (mk rk rv rl rr)) true

/-! ## bst.c: the iterator -/

/-- The iterator `struct bst_iterator { struct stack* stack; }`; the stack holds node
pointers, `NULL` included. -/
structure bst_iterator (α : Type) where
  stack : List (bst_node α)
deriving DecidableEq, Repr

/-- `bst_iterator_create`: a new stack onto which `bst->root` is pushed, without a
test for `NULL`. -/
def bst_iterator_create {α : Type} (t : bst α) : bst_iterator α :=
  ⟨stack_push stack_create t.root⟩

/-- `bst_iterator_has_next`: 1 when `stack_isempty` returns 0, and 0 otherwise. -/
def bst_iterator_has_next {α : Type} (it : bst_iterator α) : Int :=
  if stack_isempty it.stack = 0 then 1 else 0

/-- `bst_iterator_next`: pop a node, push its right child and then its left child
when they are not `NULL`, and return the node's key and value with the iterator
after the call. Popping an empty stack or a `NULL` node is a fault. -/
def bst_iterator_next {α : Type} (it : bst_iterator α) : Option ((Int × α) × bst_iterator α) :=
  match stack_pop it.stack with
  | none => none
  | some (NULL, _) => none
  | some (mk key value left right, s) =>
    let s1 := match right with
      | NULL => s
      | mk rk rv rl rr => stack_push s (mk rk rv rl rr)
    let s2 := match left with
      | NULL => s1
      | mk lk lv ll lr => stack_push s1 (mk lk lv ll lr)
    some ((key, value), ⟨s2⟩)

/-! ## Callers: sequences of operations -/

/-- A sequence of `bst_insert` calls, one per `(key, value)` pair, in order. -/
def insert_all {α : Type} : bst α → List (Int × α) → bst α
  | t, [] => t
  | t, (k, v) :: rest => insert_all (bst_insert t k v) rest

/-- The caller loop `while (bst_iterator_has_next(iter)) bst_iterator_next(iter, &v)`:
the keys and values returned, in order. -/
def drain_loop {α : Type} : Nat → bst_iterator α → Option (List (Int × α))
  | 0, _ => none
  | fuel + 1, it =>
    if bst_iterator_has_next it ≠ 0 then
      match bst_iterator_next it with
      | none => none
      | some (kv, it') => (drain_loop fuel it').map (fun out => kv :: out)
    else some []

/-- Draining a freshly created iterator over a tree; one pass per node and a last
one to leave the loop. -/
def drain {α : Type} (t : bst α) : Option (List (Int × α)) :=
  drain_loop ((bst_size t).toNat + 1) (bst_iterator_create t)

/-! ## The ordering invariant -/

/-- Structural in-order sequence (left subtree, node, right subtree) of the
`(key, value)` pairs below a link. -/
def inorder {α : Type} : bst_node α → List (Int × α)
  | NULL => []
  | mk k v left right => inorder left ++ (k, v) :: inorder right

/-- Ordering invariant: at every node, all keys in its left subtree are `<` its key
and all keys in its right subtree are `>=` its key. -/
def bst_ordered {α : Type} : bst_node α → Prop
  | NULL => True
  | mk k _ left right =>
    (∀ x ∈ inorder left, x.1 < k) ∧ (∀ x ∈ inorder right, k ≤ x.1) ∧
      bst_ordered left ∧ bst_ordered right

instance bst_ordered_decidable {α : Type} : (n : bst_node α) → Decidable (bst_ordered n)
  | NULL => isTrue trivial
  | mk k _ left right =>
    have := bst_ordered_decidable left
    have := bst_ordered_decidable right
    by unfold bst_ordered; infer_instance

/-! ## Positions, shapes and traversals used to state the properties -/

/-- The descent of `bst_insert` from the link `n` as a path: the links followed
(`true` for `left`) down to the `NULL` link into which the new node is stored. -/
def insert_path {α : Type} : bst_node α → Int → List Bool
  | NULL, _ => []
  | mk k _ left right, key =>
    if key < k then true :: insert_path left key else false :: insert_path right key

/-- The subtree that `bst_remove` stores in place of the node `n`, by the shape of
`n`: `NULL` for a leaf, the only child for a node with one child, and the spliced
successor for a node with two children. -/
def replacement {α : Type} : bst_node α → bst_node α
  | NULL => NULL
  | mk _ _ NULL right => right
  | mk _ _ (mk lk lv ll lr) NULL => mk lk lv ll lr
  | mk _ _ (mk lk lv ll lr) (mk rk rv rl rr) => splice (mk lk lv ll lr) (mk rk rv rl rr)

/-- Index, in the structural in-order sequence of the tree below a link, of the node
at the end of a path. -/
def inorder_pos {α : Type} : bst_node α → List Bool → Nat
  | NULL, _ => 0
  | mk _ _ left _, [] => (inorder left).length
  | mk _ _ left right, d :: path =>
    if d then inorder_pos left path else (inorder left).length + 1 + inorder_pos right path

/-- Pre-order sequence (node, left subtree, right subtree) of the `(key, value)` pairs
below a link. -/
def preorder {α : Type} : bst_node α → List (Int × α)
  | NULL => []
  | mk k v left right => (k, v) :: (preorder left ++ preorder right)

/-- Pre-order sequences of the nodes of a stack, top first. -/
def preorder_stack {α : Type} : List (bst_node α) → List (Int × α)
  | [] => []
  | n :: s => preorder n ++ preorder_stack s

/-- The caller sequence of exactly `n` calls of `bst_iterator_next`, each made after
`bst_iterator_has_next` returned 1: the keys and values returned and the iterator
left. `none` when `bst_iterator_has_next` does not return 1 before one of the calls,
or when a call faults. -/
def next_n {α : Type} : Nat → bst_iterator α → Option (List (Int × α) × bst_iterator α)
  | 0, it => some ([], it)
  | n + 1, it =>
    if bst_iterator_has_next it = 1 then
      match bst_iterator_next it with
      | none => none
      | some (kv, it1) =>
        match next_n n it1 with
        | none => none
        | some (out, it2) => some (kv :: out, it2)
    else none

end BST

/-! # Properties of the priority queue -/

namespace PQ

/-! ### Indices: from C `int` to positions in the list -/

theorem dynarray_get_cast {β : Type} (a : List β) (i : Nat) :
    dynarray_get a (i : Int) = a[i]? := by
  unfold dynarray_get dynarray_size
  by_cases h : i < a.length
  · have h1 : (0 : Int) ≤ (i : Int) ∧ (i : Int) < (a.length : Int) := by omega
    simp [h1]
  · have h1 : ¬ ((0 : Int) ≤ (i : Int) ∧ (i : Int) < (a.length : Int)) := by omega
    have h2 : a.length ≤ i := by omega
    simp [h1, List.getElem?_eq_none h2]

theorem tdiv_parent (i : Nat) : Int.tdiv ((i : Int) - 1) 2 = (((i - 1) / 2 : Nat) : Int) := by
  cases i with
  | zero => decide
  | succ n =>
    have h : ((n + 1 : Nat) : Int) - 1 = (n : Int) := by omega
    rw [h]
    simp [Int.tdiv]

theorem swap_nodes_cast {α : Type} (a : List (node α)) (i j : Nat) (x y : node α)
    (hi : a[i]? = some x) (hj : a[j]? = some y) :
    swap_nodes a (i : Int) (j : Int) = (a.set i y).set j x := by
  unfold swap_nodes
  rw [dynarray_get_cast, dynarray_get_cast, hi, hj]
  simp

theorem prio_of_get {α : Type} (a : List (node α)) (i : Nat) (x : node α)
    (h : a[i]? = some x) : prio a i = x.priority := by
  simp [prio, h]

theorem get_of_lt {α : Type} (a : List (node α)) (i : Nat) (h : i < a.length) :
    ∃ x, a[i]? = some x := ⟨a[i], List.getElem?_eq_getElem h⟩

theorem prio_swap {α : Type} (a : List (node α)) (i j : Nat) (x y : node α)
    (hi : a[i]? = some x) (hj : a[j]? = some y) (m : Nat) :
    prio ((a.set i y).set j x) m =
      if m = j then prio a i else if m = i then prio a j else prio a m := by
  have hil : i < a.length := by
    by_contra hc
    rw [List.getElem?_eq_none (by omega)] at hi
    cases hi
  have hjl : j < a.length := by
    by_contra hc
    rw [List.getElem?_eq_none (by omega)] at hj
    cases hj
  rw [prio_of_get a i x hi, prio_of_get a j y hj]
  unfold prio
  rw [List.getElem?_set, List.getElem?_set]
  by_cases h1 : m = j
  · subst h1
    simp [hjl]
  · by_cases h2 : m = i
    · subst h2
      have h3 : ¬ j = m := fun h => h1 h.symm
      simp [h1, h3, hil]
    · have h3 : ¬ j = m := fun h => h1 h.symm
      have h4 : ¬ i = m := fun h => h2 h.symm
      simp [h1, h2, h3, h4]

/-! ### Percolating up restores the heap order -/

theorem heap_except_append {α : Type} (a : List (node α)) (x : node α)
    (h : heap_ordered a) : heap_except (a ++ [x]) a.length := by
  have hp : ∀ m : Nat, m < a.length → prio (a ++ [x]) m = prio a m := by
    intro m hm
    unfold prio
    rw [List.getElem?_append_left hm]
  constructor
  · intro i hi h1 hne
    have hi2 : i < a.length := by
      simp at hi
      omega
    rw [hp i hi2, hp ((i - 1) / 2) (by omega)]
    exact h i hi2 h1
  · intro i hi h1 hpar _
    simp at hi
    omega

theorem heap_except_swap {α : Type} (a : List (node α)) (k : Nat) (x y : node α)
    (hk : a[k]? = some x) (hp : a[(k - 1) / 2]? = some y)
    (hlt : x.priority < y.priority) (h : heap_except a k) :
    heap_except ((a.set k y).set ((k - 1) / 2) x) ((k - 1) / 2) := by
  obtain ⟨h1, h2⟩ := h
  have hpk : prio a k = x.priority := prio_of_get a k x hk
  have hpp : prio a ((k - 1) / 2) = y.priority := prio_of_get a _ y hp
  have hk1 : 1 ≤ k := by
    by_contra hc
    have hk0 : k = 0 := by omega
    subst hk0
    simp at hp
    rw [hk] at hp
    cases hp
    omega
  have hlen : ((a.set k y).set ((k - 1) / 2) x).length = a.length := by simp
  constructor
  · intro i hi hi1 hne
    rw [hlen] at hi
    rw [prio_swap a k ((k - 1) / 2) x y hk hp, prio_swap a k ((k - 1) / 2) x y hk hp]
    by_cases hik : i = k
    · subst hik
      simp only [if_true]
      rw [hpk, hpp]
      omega
    · rw [if_neg hne, if_neg hik]
      by_cases hpi : (i - 1) / 2 = (k - 1) / 2
      · rw [if_pos hpi, hpk]
        have := h1 i hi hi1 hik
        rw [hpi, hpp] at this
        omega
      · rw [if_neg hpi]
        by_cases hpik : (i - 1) / 2 = k
        · rw [if_pos hpik]
          exact h2 i hi hi1 hpik hk1
        · rw [if_neg hpik]
          exact h1 i hi hi1 hik
  · intro i hi hi1 hpar hp1
    rw [hlen] at hi
    rw [prio_swap a k ((k - 1) / 2) x y hk hp, prio_swap a k ((k - 1) / 2) x y hk hp]
    have hne1 : ¬ ((k - 1) / 2 - 1) / 2 = (k - 1) / 2 := by omega
    have hne2 : ¬ ((k - 1) / 2 - 1) / 2 = k := by omega
    have hne3 : ¬ i = (k - 1) / 2 := by omega
    rw [if_neg hne1, if_neg hne2, if_neg hne3]
    have hkl : k < a.length := by
      by_contra hc
      rw [List.getElem?_eq_none (by omega)] at hk
      cases hk
    have hgp := h1 ((k - 1) / 2) (by omega) hp1 (by omega)
    by_cases hik : i = k
    · rw [if_pos hik]
      exact hgp
    · rw [if_neg hik]
      have := h1 i hi hi1 hik
      rw [hpar] at this
      omega

theorem percolate_up_loop_heap {α : Type} (fuel : Nat) :
    ∀ (a : List (node α)) (k : Nat), k < a.length → k < fuel → heap_except a k →
      ∃ a1, percolate_up_loop fuel a (k : Int) = some a1 ∧ heap_ordered a1 ∧
        a1.length = a.length := by
  induction fuel with
  | zero => intro a k _ hf; omega
  | succ fuel ih =>
    intro a k hk hf h
    obtain ⟨x, hx⟩ := get_of_lt a k hk
    obtain ⟨y, hy⟩ := get_of_lt a ((k - 1) / 2) (by omega)
    unfold percolate_up_loop
    rw [tdiv_parent, dynarray_get_cast, dynarray_get_cast, hx, hy]
    simp only
    by_cases hlt : y.priority > x.priority
    · rw [if_pos hlt, swap_nodes_cast a k ((k - 1) / 2) x y hx hy]
      have hk1 : 1 ≤ k := by
        by_contra hc
        have hk0 : k = 0 := by omega
        subst hk0
        simp at hy
        rw [hx] at hy
        cases hy
        omega
      have hs := heap_except_swap a k x y hx hy hlt h
      obtain ⟨a1, e1, o1, l1⟩ := ih ((a.set k y).set ((k - 1) / 2) x) ((k - 1) / 2)
        (by simp; omega) (by omega) hs
      exact ⟨a1, e1, o1, by simpa using l1⟩
    · rw [if_neg hlt]
      refine ⟨a, rfl, ?_, rfl⟩
      intro i hi hi1
      by_cases hik : i = k
      · subst hik
        rw [prio_of_get a i x hx, prio_of_get a _ y hy]
        omega
      · exact h.1 i hi hi1 hik

/-! ### Percolating down returns -/

theorem swap_nodes_length {α : Type} (a : List (node α)) (one two : Int) :
    (swap_nodes a one two).length = a.length := by
  unfold swap_nodes
  split <;> simp

theorem percolate_down_loop_some {α : Type} (fuel : Nat) :
    ∀ (a : List (node α)) (i : Nat), i < a.length → a.length < fuel + i →
      ∃ a1, percolate_down_loop fuel a (i : Int) = some a1 ∧ a1.length = a.length := by
  induction fuel with
  | zero => intro a i h1 h2; omega
  | succ fuel ih =>
    intro a i h1 h2
    have c1 : (2 : Int) * (i : Int) + 1 = ((2 * i + 1 : Nat) : Int) := by omega
    have c2 : (2 : Int) * (i : Int) + 2 = ((2 * i + 2 : Nat) : Int) := by omega
    unfold percolate_down_loop
    rw [c1, c2]
    by_cases hl : 2 * i + 1 < a.length
    · have hl1 : ((2 * i + 1 : Nat) : Int) < dynarray_size a := by
        unfold dynarray_size
        omega
      obtain ⟨left, hleft⟩ := get_of_lt a (2 * i + 1) hl
      rw [if_pos hl1, dynarray_get_cast, hleft]
      simp only
      by_cases hr : 2 * i + 2 < a.length
      · have hr1 : ((2 * i + 2 : Nat) : Int) < dynarray_size a := by
          unfold dynarray_size
          omega
        obtain ⟨right, hright⟩ := get_of_lt a (2 * i + 2) hr
        rw [if_pos hr1, dynarray_get_cast, hright]
        simp only
        by_cases hc : left.priority < right.priority
        · rw [if_pos hc]
          obtain ⟨a1, e1, l1⟩ := ih (swap_nodes a (i : Int) ((2 * i + 1 : Nat) : Int))
            (2 * i + 1) (by rw [swap_nodes_length]; exact hl)
            (by rw [swap_nodes_length]; omega)
          exact ⟨a1, e1, by rw [l1, swap_nodes_length]⟩
        · rw [if_neg hc]
          obtain ⟨a1, e1, l1⟩ := ih (swap_nodes a (i : Int) ((2 * i + 2 : Nat) : Int))
            (2 * i + 2) (by rw [swap_nodes_length]; exact hr)
            (by rw [swap_nodes_length]; omega)
          exact ⟨a1, e1, by rw [l1, swap_nodes_length]⟩
      · have hr1 : ¬ ((2 * i + 2 : Nat) : Int) < dynarray_size a := by
          unfold dynarray_size
          omega
        rw [if_neg hr1]
        obtain ⟨a1, e1, l1⟩ := ih (swap_nodes a (i : Int) ((2 * i + 1 : Nat) : Int))
          (2 * i + 1) (by rw [swap_nodes_length]; exact hl)
          (by rw [swap_nodes_length]; omega)
        exact ⟨a1, e1, by rw [l1, swap_nodes_length]⟩
    · have hl1 : ¬ ((2 * i + 1 : Nat) : Int) < dynarray_size a := by
        unfold dynarray_size
        omega
      rw [if_neg hl1]
      exact ⟨a, rfl, rfl⟩

/-! ### Swaps permute the array -/

theorem set_set_perm {β : Type} (a : List β) (i j : Nat) (x y : β)
    (hi : a[i]? = some x) (hj : a[j]? = some y) : ((a.set i y).set j x).Perm a := by
  classical
  have hil : i < a.length := by
    by_contra hc
    rw [List.getElem?_eq_none (by omega)] at hi
    cases hi
  have hjl : j < a.length := by
    by_contra hc
    rw [List.getElem?_eq_none (by omega)] at hj
    cases hj
  have hxi : a[i] = x := by
    rw [List.getElem?_eq_getElem hil] at hi
    exact Option.some.inj hi
  have hyj : a[j] = y := by
    rw [List.getElem?_eq_getElem hjl] at hj
    exact Option.some.inj hj
  rw [List.perm_iff_count]
  intro b
  have hjl2 : j < (a.set i y).length := by simpa using hjl
  have hget : (a.set i y)[j] = y := by
    rw [List.getElem_set]
    split
    · rfl
    · exact hyj
  rw [List.count_set x b (a.set i y) j hjl2, List.count_set y b a i hil, hget, hxi]
  have hx : x ∈ a := hxi ▸ List.getElem_mem _
  by_cases hxb : x = b
  · subst hxb
    have := (List.one_le_count_iff (a := x) (l := a)).2 hx
    by_cases hyb : y = x
    · simp [hyb]; omega
    · simp [hyb]; omega
  · by_cases hyb : y = b
    · simp [hxb, hyb]
    · simp [hxb, hyb]

theorem swap_nodes_perm {α : Type} (a : List (node α)) (one two : Int) :
    (swap_nodes a one two).Perm a := by
  unfold swap_nodes
  split
  · rename_i x y hx hy
    unfold dynarray_get at hx hy
    split at hx
    · split at hy
      · exact set_set_perm a one.toNat two.toNat x y hx hy
      · cases hy
    · cases hx
  · exact List.Perm.refl _

theorem percolate_down_loop_perm {α : Type} (fuel : Nat) :
    ∀ (a : List (node α)) (index : Int) (a1 : List (node α)),
      percolate_down_loop fuel a index = some a1 → a1.Perm a := by
  induction fuel with
  | zero => intro a index a1 h; simp [percolate_down_loop] at h
  | succ fuel ih =>
    intro a index a1 h
    unfold percolate_down_loop at h
    split at h
    · split at h
      · cases h
      · split at h
        · split at h
          · cases h
          · split at h
            · exact (ih _ _ _ h).trans (swap_nodes_perm _ _ _)
            · exact (ih _ _ _ h).trans (swap_nodes_perm _ _ _)
        · exact (ih _ _ _ h).trans (swap_nodes_perm _ _ _)
    · cases h
      exact List.Perm.refl _

theorem prio_zero_le {α : Type} (a : List (node α)) (h : heap_ordered a) :
    ∀ i : Nat, i < a.length → prio a 0 ≤ prio a i := by
  intro i
  induction i using Nat.strong_induction_on with
  | _ i ih =>
    intro hi
    by_cases h0 : i = 0
    · subst h0
      exact le_refl _
    · have h1 := h i hi (by omega)
      have h2 := ih ((i - 1) / 2) (by omega) (by omega)
      omega

theorem percolate_up_loop_some {α : Type} (fuel : Nat) :
    ∀ (a : List (node α)) (k : Nat), k < a.length → k < fuel →
      ∃ a1, percolate_up_loop fuel a (k : Int) = some a1 ∧ a1.length = a.length := by
  induction fuel with
  | zero => intro a k _ hf; omega
  | succ fuel ih =>
    intro a k hk hf
    obtain ⟨x, hx⟩ := get_of_lt a k hk
    obtain ⟨y, hy⟩ := get_of_lt a ((k - 1) / 2) (by omega)
    unfold percolate_up_loop
    rw [tdiv_parent, dynarray_get_cast, dynarray_get_cast, hx, hy]
    simp only
    by_cases hlt : y.priority > x.priority
    · rw [if_pos hlt]
      have hk1 : 1 ≤ k := by
        by_contra hc
        have hk0 : k = 0 := by omega
        subst hk0
        simp at hy
        rw [hx] at hy
        cases hy
        omega
      obtain ⟨a1, e1, l1⟩ := ih (swap_nodes a (k : Int) (((k - 1) / 2 : Nat) : Int))
        ((k - 1) / 2) (by rw [swap_nodes_length]; omega) (by omega)
      exact ⟨a1, e1, by rw [l1, swap_nodes_length]⟩
    · rw [if_neg hlt]
      exact ⟨a, rfl, rfl⟩

/-! ### Insertion and removal return -/

theorem pq_insert_some {α : Type} (q : pq α) (value : α) (priority : Int) :
    ∃ q1, pq_insert q value priority = some q1 ∧ q1.array.length = q.array.length + 1 := by
  have hidx : dynarray_size (dynarray_insert q.array ⟨value, priority⟩) - 1 =
      ((q.array.length : Nat) : Int) := by
    simp [dynarray_size, dynarray_insert]
  obtain ⟨a1, e1, l1⟩ := percolate_up_loop_some (q.array.length + 1)
    (q.array ++ [⟨value, priority⟩]) q.array.length (by simp) (by omega)
  refine ⟨⟨a1⟩, ?_, by simpa using l1⟩
  unfold pq_insert percolate_up
  simp only [hidx, Int.toNat_ofNat]
  unfold dynarray_insert
  rw [e1]
  rfl

theorem insert_all_some {α : Type} (xs : List (α × Int)) :
    ∀ q : pq α, ∃ q1, insert_all q xs = some q1 ∧
      q1.array.length = q.array.length + xs.length := by
  induction xs with
  | nil => intro q; exact ⟨q, rfl, rfl⟩
  | cons x rest ih =>
    intro q
    obtain ⟨v, p⟩ := x
    obtain ⟨q1, e1, l1⟩ := pq_insert_some q v p
    obtain ⟨q2, e2, l2⟩ := ih q1
    refine ⟨q2, ?_, ?_⟩
    · unfold insert_all
      rw [e1]
      exact e2
    · rw [l2, l1, List.length_cons]
      omega

theorem dynarray_get_zero_cons {β : Type} (x : β) (rest : List β) :
    dynarray_get (x :: rest) 0 = some x := by
  have h := dynarray_get_cast (x :: rest) 0
  simpa using h

theorem pq_remove_first_cons {α : Type} (x : node α) (rest : List (node α)) :
    ∃ q1, pq_remove_first (⟨x :: rest⟩ : pq α) = some (x.value, q1) ∧
      q1.array.length = rest.length ∧ q1.array.Perm rest := by
  unfold pq_remove_first pq_first
  simp only [dynarray_get_zero_cons, Option.map_some']
  rcases List.eq_nil_or_concat rest with hr | ⟨init, y, hr⟩
  · subst hr
    refine ⟨⟨[]⟩, ?_, rfl, List.Perm.refl _⟩
    simp [dynarray_size, dynarray_remove]
  · rw [List.concat_eq_append] at hr
    subst hr
    have hsz : dynarray_size (x :: (init ++ [y])) - 1 = ((init.length + 1 : Nat) : Int) := by
      simp [dynarray_size]
    have hpos : dynarray_size (x :: (init ++ [y])) - 1 > 0 := by
      rw [hsz]
      omega
    have h0 : (x :: (init ++ [y]))[0]? = some x := by simp
    have hl : (x :: (init ++ [y]))[init.length + 1]? = some y := by simp
    have hsw : swap_nodes (x :: (init ++ [y])) 0 (dynarray_size (x :: (init ++ [y])) - 1) =
        y :: (init ++ [x]) := by
      rw [hsz]
      have := swap_nodes_cast (x :: (init ++ [y])) 0 (init.length + 1) x y h0 hl
      simp only [Nat.cast_zero] at this
      rw [this]
      simp
    have hsz2 : dynarray_size (y :: (init ++ [x])) - 1 = ((init.length + 1 : Nat) : Int) := by
      simp [dynarray_size]
    have hget : dynarray_get (y :: (init ++ [x])) ((init.length + 1 : Nat) : Int) = some x := by
      rw [dynarray_get_cast]
      simp
    have hrem : dynarray_remove (y :: (init ++ [x])) ((init.length + 1 : Nat) : Int) =
        some (y :: init) := by
      unfold dynarray_remove dynarray_size
      have hc : (0 : Int) ≤ ((init.length + 1 : Nat) : Int) ∧
          ((init.length + 1 : Nat) : Int) < (((y :: (init ++ [x])).length : Nat) : Int) := by
        refine ⟨by omega, ?_⟩
        simp only [List.length_cons, List.length_append, List.length_singleton]
        omega
      rw [if_pos hc, Int.toNat_ofNat]
      simp [List.eraseIdx_append_of_length_le (le_refl init.length)]
    rw [if_pos hpos]
    simp only [hsw, hsz2, hget, hrem]
    unfold percolate_down
    simp only [dynarray_get_zero_cons]
    obtain ⟨a1, e1, l1⟩ := percolate_down_loop_some ((y :: init).length + 1) (y :: init) 0
      (by simp) (by simp)
    have e2 : percolate_down_loop ((y :: init).length + 1) (y :: init) 0 = some a1 := by
      simpa using e1
    have hp := percolate_down_loop_perm _ _ _ _ e2
    refine ⟨⟨a1⟩, ?_, ?_, ?_⟩
    · rw [e2]
      rfl
    · simp [l1]
    · exact hp.trans (List.perm_append_singleton y init).symm

theorem remove_n_some {α : Type} (k : Nat) :
    ∀ q : pq α, k ≤ q.array.length →
      ∃ out q1, remove_n k q = some (out, q1) ∧ q1.array.length + k = q.array.length ∧
        out.length = k := by
  induction k with
  | zero => intro q _; exact ⟨[], q, rfl, rfl, rfl⟩
  | succ k ih =>
    intro q hk
    obtain ⟨a⟩ := q
    cases a with
    | nil => simp at hk
    | cons x rest =>
      obtain ⟨q1, e1, l1, _⟩ := pq_remove_first_cons x rest
      obtain ⟨out, q2, e2, l2, l3⟩ := ih q1 (by simp at hk; omega)
      refine ⟨(x.value, x.priority) :: out, q2, ?_, ?_, ?_⟩
      · unfold remove_n pq_first_priority
        simp only [dynarray_get_zero_cons, Option.map_some', e1, e2]
      · simp
        omega
      · simp [l3]

/-! ### Claims about the priority queue -/

/-- C1, evaluated on the code: after `pq_insert` with priorities 1, 3, 2 on an empty
queue, three `pq_remove_first` calls return the entries with priorities 1, 3, 2 in
that order, which is not a non-decreasing order. -/
theorem remove_order_1_3_2 :
    (insert_all (pq_create : pq Nat) [(10, 1), (11, 3), (12, 2)]).bind (remove_n 3) =
        some ([(10, 1), (11, 3), (12, 2)], ⟨[]⟩) ∧
      ¬ List.Sorted (fun x y : Int => x ≤ y)
        (List.map Prod.snd [((10 : Nat), (1 : Int)), (11, 3), (12, 2)]) := by
  decide

/-- C2, evaluated on the code: the array with priorities 1, 3, 2 satisfies the
min-heap order invariant, and after `pq_remove_first` the array has priorities 3, 2,
which violates it at index 1. -/
theorem remove_first_breaks_heap_order :
    heap_ordered ([⟨10, 1⟩, ⟨11, 3⟩, ⟨12, 2⟩] : List (node Nat)) ∧
      pq_remove_first (⟨[⟨10, 1⟩, ⟨11, 3⟩, ⟨12, 2⟩]⟩ : pq Nat) =
        some (10, ⟨[⟨11, 3⟩, ⟨12, 2⟩]⟩) ∧
      ¬ heap_ordered ([⟨11, 3⟩, ⟨12, 2⟩] : List (node Nat)) := by
  decide

/-- C3: `pq_insert` preserves the min-heap order invariant. For every queue whose
array satisfies `priority[(i-1)/2] <= priority[i]` for every index `i >= 1` (the
empty queue included) and every value and priority, `pq_insert` returns, and the
array afterwards is one entry longer and satisfies the same invariant. -/
theorem pq_insert_preserves_heap_order {α : Type} (q : pq α) (value : α) (priority : Int)
    (h : heap_ordered q.array) :
    ∃ q1, pq_insert q value priority = some q1 ∧ heap_ordered q1.array ∧
      q1.array.length = q.array.length + 1 := by
  have hidx : dynarray_size (dynarray_insert q.array ⟨value, priority⟩) - 1 =
      ((q.array.length : Nat) : Int) := by
    simp [dynarray_size, dynarray_insert]
  obtain ⟨a1, e1, o1, l1⟩ := percolate_up_loop_heap (q.array.length + 1)
    (q.array ++ [⟨value, priority⟩]) q.array.length (by simp) (by omega)
    (heap_except_append q.array ⟨value, priority⟩ h)
  refine ⟨⟨a1⟩, ?_, o1, by simpa using l1⟩
  unfold pq_insert percolate_up
  simp only [hidx, Int.toNat_ofNat]
  unfold dynarray_insert
  rw [e1]
  rfl

/-- C3 at a concrete queue: inserting priority 2 into the heap-ordered array 1, 3. -/
theorem pq_insert_preserves_heap_order_witness :
    heap_ordered (⟨[⟨10, 1⟩, ⟨11, 3⟩]⟩ : pq Nat).array ∧
      ∃ q1, pq_insert (⟨[⟨10, 1⟩, ⟨11, 3⟩]⟩ : pq Nat) 12 2 = some q1 ∧
        heap_ordered q1.array ∧
        q1.array.length = (⟨[⟨10, 1⟩, ⟨11, 3⟩]⟩ : pq Nat).array.length + 1 :=
  ⟨by decide, pq_insert_preserves_heap_order ⟨[⟨10, 1⟩, ⟨11, 3⟩]⟩ 12 2 (by decide)⟩

/-- C14: for every non-empty queue whose array satisfies the min-heap order invariant,
`pq_first_priority` returns the priority of the entry in slot 0, which is `<=` the
priority of every entry in the queue, and `pq_first` returns the value of that same
slot-0 entry. Both calls only read the array: they return no new queue. -/
theorem pq_first_is_lowest {α : Type} (q : pq α) (hne : q.array ≠ [])
    (h : heap_ordered q.array) :
    ∃ x, dynarray_get q.array 0 = some x ∧ pq_first_priority q = some x.priority ∧
      pq_first q = some x.value ∧ ∀ y ∈ q.array, x.priority ≤ y.priority := by
  obtain ⟨a⟩ := q
  cases a with
  | nil => exact absurd rfl hne
  | cons x rest =>
    refine ⟨x, dynarray_get_zero_cons x rest, ?_, ?_, ?_⟩
    · simp [pq_first_priority, dynarray_get_zero_cons]
    · simp [pq_first, dynarray_get_zero_cons]
    · intro y hy
      obtain ⟨i, hi, hiy⟩ := List.getElem_of_mem hy
      have h1 := prio_zero_le (x :: rest) h i hi
      have h2 : prio (x :: rest) 0 = x.priority := prio_of_get _ 0 x (by simp)
      have h3 : prio (x :: rest) i = y.priority :=
        prio_of_get _ i y (by rw [List.getElem?_eq_getElem hi, hiy])
      omega

/-- C14 at a concrete queue: the heap-ordered array with priorities 1, 3, 2. -/
theorem pq_first_is_lowest_witness :
    ∃ x, dynarray_get (⟨[⟨10, 1⟩, ⟨11, 3⟩, ⟨12, 2⟩]⟩ : pq Nat).array 0 = some x ∧
      pq_first_priority (⟨[⟨10, 1⟩, ⟨11, 3⟩, ⟨12, 2⟩]⟩ : pq Nat) = some x.priority ∧
      pq_first (⟨[⟨10, 1⟩, ⟨11, 3⟩, ⟨12, 2⟩]⟩ : pq Nat) = some x.value ∧
      ∀ y ∈ (⟨[⟨10, 1⟩, ⟨11, 3⟩, ⟨12, 2⟩]⟩ : pq Nat).array, x.priority ≤ y.priority :=
  pq_first_is_lowest ⟨[⟨10, 1⟩, ⟨11, 3⟩, ⟨12, 2⟩]⟩ (by decide) (by decide)

/-- C15: for every non-empty queue, heap-ordered or not, `pq_remove_first` returns the
value of the entry in slot 0 and removes exactly that entry: the array afterwards is
one shorter, and putting the old slot-0 entry back gives a permutation of the
original array (the multiset of entries is the original one less that entry). -/
theorem pq_remove_first_removes_head {α : Type} (q : pq α) (x : node α)
    (rest : List (node α)) (hq : q.array = x :: rest) :
    ∃ q1, pq_remove_first q = some (x.value, q1) ∧
      q1.array.length + 1 = q.array.length ∧ q1.array.Perm rest ∧
      (x :: q1.array).Perm q.array := by
  obtain ⟨a⟩ := q
  simp only at hq
  subst hq
  obtain ⟨q1, e1, l1, p1⟩ := pq_remove_first_cons x rest
  exact ⟨q1, e1, by simp [l1], p1, List.Perm.cons x p1⟩

/-- C15 at a concrete queue that is not heap-ordered: priorities 5, 1, 4. -/
theorem pq_remove_first_removes_head_witness :
    ∃ q1, pq_remove_first (⟨[⟨10, 5⟩, ⟨11, 1⟩, ⟨12, 4⟩]⟩ : pq Nat) =
        some ((⟨10, 5⟩ : node Nat).value, q1) ∧
      q1.array.length + 1 = (⟨[⟨10, 5⟩, ⟨11, 1⟩, ⟨12, 4⟩]⟩ : pq Nat).array.length ∧
      q1.array.Perm [⟨11, 1⟩, ⟨12, 4⟩] ∧
      ((⟨10, 5⟩ : node Nat) :: q1.array).Perm
        (⟨[⟨10, 5⟩, ⟨11, 1⟩, ⟨12, 4⟩]⟩ : pq Nat).array :=
  pq_remove_first_removes_head ⟨[⟨10, 5⟩, ⟨11, 1⟩, ⟨12, 4⟩]⟩ ⟨10, 5⟩
    [⟨11, 1⟩, ⟨12, 4⟩] rfl

/-- C16: for every sequence of `N >= 0` `pq_insert` calls on the queue from `pq_create`,
`pq_isempty` returns 1 before any insert; the inserts all return; and for every
`k <= N` the next `k` calls of `pq_remove_first` all return, after which `pq_isempty`
returns 0 when `k < N` (so also right after the inserts when `N >= 1`) and 1 when
`k = N`. -/
theorem pq_isempty_after_inserts_and_removals {α : Type} (xs : List (α × Int)) :
    pq_isempty (pq_create : pq α) = 1 ∧
      ∃ q, insert_all (pq_create : pq α) xs = some q ∧
        ∀ k : Nat, k ≤ xs.length →
          ∃ out q1, remove_n k q = some (out, q1) ∧ out.length = k ∧
            pq_isempty q1 = if k < xs.length then 0 else 1 := by
  refine ⟨rfl, ?_⟩
  obtain ⟨q, e, l⟩ := insert_all_some xs (pq_create : pq α)
  have l0 : q.array.length = xs.length := by
    rw [l]
    simp [pq_create, dynarray_create]
  refine ⟨q, e, ?_⟩
  intro k hk
  obtain ⟨out, q1, e1, l1, l2⟩ := remove_n_some k q (by omega)
  refine ⟨out, q1, e1, l2, ?_⟩
  unfold pq_isempty dynarray_size
  by_cases hlt : k < xs.length
  · have : ((q1.array.length : Nat) : Int) > 0 := by omega
    rw [if_pos this, if_pos hlt]
  · have : ¬ ((q1.array.length : Nat) : Int) > 0 := by omega
    rw [if_neg this, if_neg hlt]

/-- C16 at a concrete sequence: three inserts with priorities 5, 2, 8. -/
theorem pq_isempty_after_inserts_and_removals_witness :
    pq_isempty (pq_create : pq Nat) = 1 ∧
      ∃ q, insert_all (pq_create : pq Nat) [(10, 5), (11, 2), (12, 8)] = some q ∧
        ∀ k : Nat, k ≤ [((10 : Nat), (5 : Int)), (11, 2), (12, 8)].length →
          ∃ out q1, remove_n k q = some (out, q1) ∧ out.length = k ∧
            pq_isempty q1 =
              if k < [((10 : Nat), (5 : Int)), (11, 2), (12, 8)].length then 0 else 1 :=
  pq_isempty_after_inserts_and_removals [(10, 5), (11, 2), (12, 8)]

/-- C20: `percolate_up` is total and in bounds. For every array and every index with
`0 <= index < size` (so `size >= 1`) the call returns a queue of the same size: the
loop ends, and no `dynarray_get` of the loop is out of range, since an out-of-range
read would make the call return `none`. At index 0 the parent index `(0-1)/2` is 0
under truncating division, the entry is compared with itself, the strict comparison
fails and the queue is returned unchanged. -/
theorem percolate_up_total {α : Type} (q : pq α) (index : Int) (h0 : 0 ≤ index)
    (h1 : index < dynarray_size q.array) :
    (∃ q1, percolate_up q index = some q1 ∧
        dynarray_size q1.array = dynarray_size q.array) ∧
      Int.tdiv ((0 : Int) - 1) 2 = 0 ∧
      (index = 0 → percolate_up q index = some q) := by
  obtain ⟨k, hk⟩ := Int.eq_ofNat_of_zero_le h0
  subst hk
  have hlen : k < q.array.length := by
    unfold dynarray_size at h1
    omega
  refine ⟨?_, by decide, ?_⟩
  · obtain ⟨a1, e1, l1⟩ := percolate_up_loop_some (k + 1) q.array k hlen (by omega)
    refine ⟨⟨a1⟩, ?_, ?_⟩
    · unfold percolate_up
      rw [Int.toNat_ofNat, e1]
      rfl
    · unfold dynarray_size
      rw [l1]
  · intro hk0
    have hk1 : k = 0 := by omega
    subst hk1
    obtain ⟨x, hx⟩ := get_of_lt q.array 0 hlen
    have hg : dynarray_get q.array ((0 : Nat) : Int) = some x := by
      rw [dynarray_get_cast]
      exact hx
    have ht : Int.tdiv (((0 : Nat) : Int) - 1) 2 = ((0 : Nat) : Int) := by decide
    unfold percolate_up
    rw [Int.toNat_ofNat]
    unfold percolate_up_loop
    rw [ht, hg]
    simp

/-- C20 at a concrete call: index 2 of the array with priorities 4, 6, 1. -/
theorem percolate_up_total_witness :
    (∃ q1, percolate_up (⟨[⟨10, 4⟩, ⟨11, 6⟩, ⟨12, 1⟩]⟩ : pq Nat) 2 = some q1 ∧
        dynarray_size q1.array =
          dynarray_size (⟨[⟨10, 4⟩, ⟨11, 6⟩, ⟨12, 1⟩]⟩ : pq Nat).array) ∧
      Int.tdiv ((0 : Int) - 1) 2 = 0 ∧
      ((2 : Int) = 0 →
        percolate_up (⟨[⟨10, 4⟩, ⟨11, 6⟩, ⟨12, 1⟩]⟩ : pq Nat) 2 =
          some ⟨[⟨10, 4⟩, ⟨11, 6⟩, ⟨12, 1⟩]⟩) :=
  percolate_up_total ⟨[⟨10, 4⟩, ⟨11, 6⟩, ⟨12, 1⟩]⟩ 2 (by decide) (by decide)

end PQ

/-! # Properties of the binary search tree -/

namespace BST

open bst_node

/-! ### Insertion -/

theorem inorder_insert_perm {α : Type} (n : bst_node α) (key : Int) (value : α) :
    (inorder (insert_node n key value)).Perm ((key, value) :: inorder n) := by
  induction n with
  | NULL => simp [insert_node, create_node, inorder]
  | mk k v left right ihl ihr =>
    unfold insert_node
    by_cases h : key < k
    · rw [if_pos h]
      simp only [inorder]
      exact (ihl.append_right _).trans (by simp)
    · rw [if_neg h]
      simp only [inorder]
      have h1 : (inorder left ++ (k, v) :: inorder (insert_node right key value)).Perm
          (inorder left ++ (k, v) :: (key, value) :: inorder right) :=
        List.Perm.append_left _ (List.Perm.cons _ ihr)
      refine h1.trans ?_
      have h2 : (inorder left ++ (k, v) :: (key, value) :: inorder right).Perm
          (inorder left ++ (key, value) :: (k, v) :: inorder right) :=
        List.Perm.append_left _ (List.Perm.swap _ _ _)
      exact h2.trans List.perm_middle

theorem mem_inorder_insert {α : Type} (n : bst_node α) (key : Int) (value : α)
    (x : Int × α) :
    x ∈ inorder (insert_node n key value) ↔ x = (key, value) ∨ x ∈ inorder n := by
  rw [(inorder_insert_perm n key value).mem_iff]
  simp

theorem ordered_insert {α : Type} (n : bst_node α) (key : Int) (value : α)
    (h : bst_ordered n) : bst_ordered (insert_node n key value) := by
  induction n with
  | NULL => simp [insert_node, create_node, bst_ordered, inorder]
  | mk k v left right ihl ihr =>
    obtain ⟨h1, h2, h3, h4⟩ := h
    unfold insert_node
    by_cases hlt : key < k
    · rw [if_pos hlt]
      refine ⟨?_, h2, ihl h3, h4⟩
      intro x hx
      rcases (mem_inorder_insert left key value x).1 hx with hx | hx
      · rw [hx]
        exact hlt
      · exact h1 x hx
    · rw [if_neg hlt]
      refine ⟨h1, ?_, h3, ihr h4⟩
      intro x hx
      rcases (mem_inorder_insert right key value x).1 hx with hx | hx
      · rw [hx]
        exact not_lt.mp hlt
      · exact h2 x hx

/-! ### Lookup after insertion -/

theorem find_from_absent {α : Type} (n : bst_node α) (key : Int)
    (h : ∀ x ∈ inorder n, x.1 ≠ key) : find_from n key = NULL := by
  induction n with
  | NULL => rfl
  | mk k v left right ihl ihr =>
    have hk : ¬ k = key := h (k, v) (by simp [inorder])
    unfold find_from
    rw [if_neg hk]
    by_cases hlt : key < k
    · rw [if_pos hlt]
      exact ihl (fun x hx => h x (by simp [inorder, hx]))
    · rw [if_neg hlt]
      exact ihr (fun x hx => h x (by simp [inorder, hx]))

theorem find_from_insert_new {α : Type} (n : bst_node α) (key : Int) (value : α)
    (h : find_from n key = NULL) :
    find_from (insert_node n key value) key = create_node key value := by
  induction n with
  | NULL => simp [insert_node, create_node, find_from]
  | mk k v left right ihl ihr =>
    unfold find_from at h
    by_cases hk : k = key
    · rw [if_pos hk] at h
      cases h
    · rw [if_neg hk] at h
      unfold insert_node
      by_cases hlt : key < k
      · rw [if_pos hlt] at h
        rw [if_pos hlt]
        unfold find_from
        rw [if_neg hk, if_pos hlt]
        exact ihl h
      · rw [if_neg hlt] at h
        rw [if_neg hlt]
        unfold find_from
        rw [if_neg hk, if_neg hlt]
        exact ihr h

theorem find_from_insert_old {α : Type} (n : bst_node α) (key : Int) (k1 : Int) (v1 : α)
    (fk : Int) (fv : α) (fl fr : bst_node α) (h : find_from n key = mk fk fv fl fr) :
    ∃ fl1 fr1, find_from (insert_node n k1 v1) key = mk fk fv fl1 fr1 := by
  induction n with
  | NULL => simp [find_from] at h
  | mk k v left right ihl ihr =>
    unfold find_from at h
    unfold insert_node
    by_cases hk : k = key
    · rw [if_pos hk] at h
      injection h with e1 e2 e3 e4
      subst e1 e2
      by_cases hlt : k1 < k
      · rw [if_pos hlt]
        exact ⟨_, _, by unfold find_from; rw [if_pos hk]⟩
      · rw [if_neg hlt]
        exact ⟨_, _, by unfold find_from; rw [if_pos hk]⟩
    · rw [if_neg hk] at h
      by_cases hlt1 : k1 < k
      · rw [if_pos hlt1]
        unfold find_from
        rw [if_neg hk]
        by_cases hlt : key < k
        · rw [if_pos hlt] at h
          rw [if_pos hlt]
          exact ihl h
        · rw [if_neg hlt] at h
          rw [if_neg hlt]
          exact ⟨_, _, h⟩
      · rw [if_neg hlt1]
        unfold find_from
        rw [if_neg hk]
        by_cases hlt : key < k
        · rw [if_pos hlt] at h
          rw [if_pos hlt]
          exact ⟨_, _, h⟩
        · rw [if_neg hlt] at h
          rw [if_neg hlt]
          exact ihr h

theorem bst_get_insert_old {α : Type} (t : bst α) (key k1 : Int) (v v1 : α)
    (h : bst_get t key = some v) : bst_get (bst_insert t k1 v1) key = some v := by
  unfold bst_get find_node at h
  cases hf : find_from t.root key with
  | NULL => rw [hf] at h; cases h
  | mk fk fv fl fr =>
    rw [hf] at h
    obtain ⟨fl1, fr1, e⟩ := find_from_insert_old t.root key k1 v1 fk fv fl fr hf
    unfold bst_get find_node bst_insert
    simp only [e]
    exact h

theorem bst_get_insert_all {α : Type} (more : List (Int × α)) :
    ∀ (t : bst α) (key : Int) (v : α), bst_get t key = some v →
      bst_get (insert_all t more) key = some v := by
  induction more with
  | nil => intro t key v h; exact h
  | cons kv rest ih =>
    intro t key v h
    obtain ⟨k1, v1⟩ := kv
    unfold insert_all
    exact ih _ key v (bst_get_insert_old t key k1 v v1 h)

/-! ### Removal of a node with two children -/

theorem inorder_detach {α : Type} (l : bst_node α) :
    ∀ (k : Int) (v : α) (r : bst_node α),
      inorder (mk k v l r) = successor k v l :: inorder (detach (mk k v l r)) := by
  induction l with
  | NULL => intro k v r; simp [inorder, successor, detach]
  | mk lk lv ll lr ihl _ =>
    intro k v r
    have h := ihl lk lv lr
    simp only [inorder] at h
    simp only [inorder, successor, detach]
    rw [h]
    simp

theorem splice_eq {α : Type} (nleft : bst_node α) (rk : Int) (rv : α) (rl rr : bst_node α) :
    splice nleft (mk rk rv rl rr) =
      mk (successor rk rv rl).1 (successor rk rv rl).2 nleft (detach (mk rk rv rl rr)) := by
  cases rl with
  | NULL => rfl
  | mk k v l r => rfl

theorem inorder_sorted {α : Type} (n : bst_node α) (h : bst_ordered n) :
    (inorder n).Pairwise (fun x y => x.1 ≤ y.1) := by
  induction n with
  | NULL => simp [inorder]
  | mk k v left right ihl ihr =>
    obtain ⟨h1, h2, h3, h4⟩ := h
    simp only [inorder]
    rw [List.pairwise_append]
    refine ⟨ihl h3, ?_, ?_⟩
    · rw [List.pairwise_cons]
      exact ⟨h2, ihr h4⟩
    · intro x hx y hy
      have hxk := h1 x hx
      rcases List.mem_cons.1 hy with hy | hy
      · rw [hy]
        exact le_of_lt hxk
      · have := h2 y hy
        omega

theorem ordered_detach {α : Type} (n : bst_node α) (h : bst_ordered n) :
    bst_ordered (detach n) := by
  induction n with
  | NULL => exact h
  | mk k v left right ihl _ =>
    obtain ⟨h1, h2, h3, h4⟩ := h
    cases left with
    | NULL => exact h4
    | mk lk lv ll lr =>
      have hd := inorder_detach ll lk lv lr
      refine ⟨?_, h2, ihl h3, h4⟩
      intro x hx
      exact h1 x (by rw [hd]; exact List.mem_cons_of_mem _ hx)

theorem successor_le_detach {α : Type} (k : Int) (v : α) (l r : bst_node α)
    (h : bst_ordered (mk k v l r)) :
    ∀ x ∈ inorder (detach (mk k v l r)), (successor k v l).1 ≤ x.1 := by
  have hs := inorder_sorted (mk k v l r) h
  rw [inorder_detach l k v r, List.pairwise_cons] at hs
  exact hs.1

/-! ### Paths -/

theorem node_at_NULL {α : Type} (path : List Bool) :
    node_at (NULL : bst_node α) path = NULL := by
  cases path <;> rfl

theorem node_at_mem {α : Type} (n : bst_node α) :
    ∀ (path : List Bool) (k : Int) (v : α) (l r : bst_node α),
      node_at n path = mk k v l r → (k, v) ∈ inorder n := by
  induction n with
  | NULL => intro path k v l r h; rw [node_at_NULL] at h; cases h
  | mk k0 v0 l0 r0 ihl ihr =>
    intro path k v l r h
    cases path with
    | nil =>
      simp only [node_at] at h
      injection h with e1 e2 e3 e4
      subst e1 e2
      simp [inorder]
    | cons d rest =>
      simp only [node_at] at h
      cases d with
      | true =>
        simp only [if_true] at h
        have := ihl rest k v l r h
        simp [inorder, this]
      | false =>
        simp at h
        have := ihr rest k v l r h
        simp [inorder, this]

theorem ordered_node_at {α : Type} (n : bst_node α) :
    ∀ path : List Bool, bst_ordered n → bst_ordered (node_at n path) := by
  induction n with
  | NULL => intro path _; rw [node_at_NULL]; trivial
  | mk k0 v0 l0 r0 ihl ihr =>
    intro path h
    cases path with
    | nil => exact h
    | cons d rest =>
      simp only [node_at]
      cases d with
      | true => simpa using ihl rest h.2.2.1
      | false => simpa using ihr rest h.2.2.2

/-! ### The search loops -/

theorem remove_search_of_find {α : Type} (n : bst_node α) (key : Int) :
    (find_from n key = NULL → remove_search n key = none) ∧
    (∀ fk fv fl fr, find_from n key = mk fk fv fl fr →
      fk = key ∧ ∃ path, remove_search n key = some path ∧
        node_at n path = mk fk fv fl fr) := by
  induction n with
  | NULL =>
    refine ⟨fun _ => rfl, ?_⟩
    intro fk fv fl fr h
    simp [find_from] at h
  | mk k v l r ihl ihr =>
    unfold find_from remove_search
    by_cases hk : k = key
    · rw [if_pos hk, if_pos hk]
      refine ⟨fun h => (by cases h), ?_⟩
      intro fk fv fl fr h
      injection h with e1 e2 e3 e4
      subst e1 e2 e3 e4
      exact ⟨hk, [], rfl, rfl⟩
    · rw [if_neg hk, if_neg hk]
      by_cases hlt : key < k
      · rw [if_pos hlt, if_pos hlt]
        refine ⟨fun h => (by rw [ihl.1 h]; rfl), ?_⟩
        intro fk fv fl fr h
        obtain ⟨e, path, hp, hn⟩ := ihl.2 fk fv fl fr h
        exact ⟨e, true :: path, by rw [hp]; rfl, by simpa [node_at] using hn⟩
      · rw [if_neg hlt, if_neg hlt]
        refine ⟨fun h => (by rw [ihr.1 h]; rfl), ?_⟩
        intro fk fv fl fr h
        obtain ⟨e, path, hp, hn⟩ := ihr.2 fk fv fl fr h
        exact ⟨e, false :: path, by rw [hp]; rfl, by simpa [node_at] using hn⟩

theorem find_of_remove_search {α : Type} (n : bst_node α) (key : Int) (path : List Bool)
    (h : remove_search n key = some path) :
    ∃ nv nl nr, node_at n path = mk key nv nl nr ∧ find_from n key = mk key nv nl nr := by
  cases hf : find_from n key with
  | NULL =>
    rw [(remove_search_of_find n key).1 hf] at h
    cases h
  | mk fk fv fl fr =>
    obtain ⟨e, p, hp, hn⟩ := (remove_search_of_find n key).2 fk fv fl fr hf
    rw [hp] at h
    injection h with h
    subst h
    subst e
    exact ⟨fv, fl, fr, hn, rfl⟩

/-! ### The node found is the one closest to the root -/

theorem find_from_NULL_no_key {α : Type} (n : bst_node α) (key : Int) (h : bst_ordered n) :
    find_from n key = NULL → ∀ x ∈ inorder n, x.1 ≠ key := by
  induction n with
  | NULL => intro _ x hx; simp [inorder] at hx
  | mk k v l r ihl ihr =>
    obtain ⟨h1, h2, h3, h4⟩ := h
    unfold find_from
    by_cases hk : k = key
    · rw [if_pos hk]
      intro hc
      cases hc
    · rw [if_neg hk]
      by_cases hlt : key < k
      · rw [if_pos hlt]
        intro hf x hx
        simp only [inorder, List.mem_append, List.mem_cons] at hx
        rcases hx with hx | hx | hx
        · exact ihl h3 hf x hx
        · rw [hx]
          exact hk
        · have := h2 x hx
          omega
      · rw [if_neg hlt]
        intro hf x hx
        simp only [inorder, List.mem_append, List.mem_cons] at hx
        rcases hx with hx | hx | hx
        · have := h1 x hx
          omega
        · rw [hx]
          exact hk
        · exact ihr h4 hf x hx

theorem remove_search_closest {α : Type} (n : bst_node α) (key : Int) (h : bst_ordered n) :
    ∀ path, remove_search n key = some path →
      ∀ (p : List Bool) (v : α) (l r : bst_node α), node_at n p = mk key v l r →
        p = path ∨ ∃ rest, p = path ++ false :: rest := by
  induction n with
  | NULL => intro path hs; simp [remove_search] at hs
  | mk k0 v0 l0 r0 ihl ihr =>
    obtain ⟨h1, h2, h3, h4⟩ := h
    intro path hs p v l r hp
    unfold remove_search at hs
    by_cases hk : k0 = key
    · rw [if_pos hk] at hs
      injection hs with hs
      subst hs
      cases p with
      | nil => exact Or.inl rfl
      | cons d rest =>
        cases d with
        | false => exact Or.inr ⟨rest, rfl⟩
        | true =>
          simp only [node_at, if_true] at hp
          have := h1 _ (node_at_mem l0 rest key v l r hp)
          simp at this
          omega
    · rw [if_neg hk] at hs
      cases p with
      | nil =>
        simp only [node_at] at hp
        injection hp with e1
        exact absurd e1 hk
      | cons d rest =>
        by_cases hlt : key < k0
        · rw [if_pos hlt] at hs
          cases hl : remove_search l0 key with
          | none => rw [hl] at hs; cases hs
          | some path0 =>
            rw [hl] at hs
            injection hs with hs
            subst hs
            cases d with
            | true =>
              simp only [node_at, if_true] at hp
              rcases ihl h3 path0 hl rest v l r hp with e | ⟨rest1, e⟩
              · exact Or.inl (by rw [e])
              · exact Or.inr ⟨rest1, by rw [e]; rfl⟩
            | false =>
              simp [node_at] at hp
              have := h2 _ (node_at_mem r0 rest key v l r hp)
              simp at this
              omega
        · rw [if_neg hlt] at hs
          cases hr : remove_search r0 key with
          | none => rw [hr] at hs; cases hs
          | some path0 =>
            rw [hr] at hs
            injection hs with hs
            subst hs
            cases d with
            | true =>
              simp only [node_at, if_true] at hp
              have := h1 _ (node_at_mem l0 rest key v l r hp)
              simp at this
              omega
            | false =>
              simp [node_at] at hp
              rcases ihr h4 path0 hr rest v l r hp with e | ⟨rest1, e⟩
              · exact Or.inl (by rw [e])
              · exact Or.inr ⟨rest1, by rw [e]; rfl⟩

/-! ### Insertion keeps the node found in place -/

theorem node_at_insert_path {α : Type} (n : bst_node α) (key : Int) (value : α) :
    node_at (insert_node n key value) (insert_path n key) = create_node key value := by
  induction n with
  | NULL => rfl
  | mk k v l r ihl ihr =>
    unfold insert_node insert_path
    by_cases hlt : key < k
    · rw [if_pos hlt, if_pos hlt]
      simpa [node_at] using ihl
    · rw [if_neg hlt, if_neg hlt]
      simpa [node_at] using ihr

theorem remove_search_insert {α : Type} (n : bst_node α) (key k1 : Int) (v1 : α) :
    ∀ path, remove_search n key = some path →
      remove_search (insert_node n k1 v1) key = some path ∧
      (∃ fv fl fr fl1 fr1, node_at n path = mk key fv fl fr ∧
        node_at (insert_node n k1 v1) path = mk key fv fl1 fr1) ∧
      (k1 = key → ∃ rest, insert_path n k1 = path ++ false :: rest) := by
  induction n with
  | NULL => intro path hs; simp [remove_search] at hs
  | mk k v l r ihl ihr =>
    intro path hs
    unfold remove_search at hs
    by_cases hk : k = key
    · rw [if_pos hk] at hs
      injection hs with hs
      subst hs
      subst hk
      refine ⟨?_, ?_, ?_⟩
      · unfold insert_node
        split <;> simp [remove_search]
      · unfold insert_node
        split
        · exact ⟨v, l, r, _, _, rfl, rfl⟩
        · exact ⟨v, l, r, _, _, rfl, rfl⟩
      · intro e
        subst e
        unfold insert_path
        rw [if_neg (lt_irrefl _)]
        exact ⟨_, rfl⟩
    · rw [if_neg hk] at hs
      by_cases hlt : key < k
      · rw [if_pos hlt] at hs
        cases hl : remove_search l key with
        | none => rw [hl] at hs; cases hs
        | some path0 =>
          rw [hl] at hs
          injection hs with hs
          subst hs
          obtain ⟨a1, ⟨fv, fl, fr, fl1, fr1, a2, a3⟩, a4⟩ := ihl path0 hl
          refine ⟨?_, ?_, ?_⟩
          · unfold insert_node
            split
            · simp [remove_search, hk, hlt, a1]
            · simp [remove_search, hk, hlt, hl]
          · unfold insert_node
            split
            · exact ⟨fv, fl, fr, fl1, fr1, by simpa [node_at] using a2,
                by simpa [node_at] using a3⟩
            · exact ⟨fv, fl, fr, fl, fr, by simpa [node_at] using a2,
                by simpa [node_at] using a2⟩
          · intro e
            obtain ⟨rest, hrest⟩ := a4 e
            subst e
            unfold insert_path
            rw [if_pos hlt, hrest]
            exact ⟨rest, rfl⟩
      · rw [if_neg hlt] at hs
        cases hr : remove_search r key with
        | none => rw [hr] at hs; cases hs
        | some path0 =>
          rw [hr] at hs
          injection hs with hs
          subst hs
          obtain ⟨a1, ⟨fv, fl, fr, fl1, fr1, a2, a3⟩, a4⟩ := ihr path0 hr
          refine ⟨?_, ?_, ?_⟩
          · unfold insert_node
            split
            · simp [remove_search, hk, hlt, hr]
            · simp [remove_search, hk, hlt, a1]
          · unfold insert_node
            split
            · exact ⟨fv, fl, fr, fl, fr, by simpa [node_at] using a2,
                by simpa [node_at] using a2⟩
            · exact ⟨fv, fl, fr, fl1, fr1, by simpa [node_at] using a2,
                by simpa [node_at] using a3⟩
          · intro e
            obtain ⟨rest, hrest⟩ := a4 e
            subst e
            unfold insert_path
            rw [if_neg hlt, hrest]
            exact ⟨rest, rfl⟩

/-! ### Removal below the children of the root -/

theorem ordered_splice {α : Type} (k : Int) (v : α) (l : bst_node α) (rk : Int) (rv : α)
    (rl rr : bst_node α) (h : bst_ordered (mk k v l (mk rk rv rl rr))) :
    bst_ordered (splice l (mk rk rv rl rr)) := by
  obtain ⟨h1, h2, h3, h4⟩ := h
  rw [splice_eq]
  have hd := inorder_detach rl rk rv rr
  have hmem : successor rk rv rl ∈ inorder (mk rk rv rl rr) := by
    rw [hd]
    exact List.mem_cons_self _ _
  have hks := h2 _ hmem
  refine ⟨?_, successor_le_detach rk rv rl rr h4, h3, ordered_detach _ h4⟩
  intro x hx
  have := h1 x hx
  omega

theorem inorder_splice {α : Type} (l : bst_node α) (rk : Int) (rv : α) (rl rr : bst_node α) :
    inorder (splice l (mk rk rv rl rr)) = inorder l ++ inorder (mk rk rv rl rr) := by
  rw [splice_eq, inorder_detach rl rk rv rr]
  rfl

theorem inorder_replacement {α : Type} (k : Int) (v : α) (l r : bst_node α) :
    inorder (replacement (mk k v l r)) = inorder l ++ inorder r := by
  cases l with
  | NULL => simp [replacement, inorder]
  | mk lk lv ll lr =>
    cases r with
    | NULL => simp [replacement, inorder]
    | mk rk rv rl rr =>
      simp only [replacement]
      exact inorder_splice _ rk rv rl rr

theorem ordered_replacement {α : Type} (k : Int) (v : α) (l r : bst_node α)
    (h : bst_ordered (mk k v l r)) : bst_ordered (replacement (mk k v l r)) := by
  cases l with
  | NULL => exact h.2.2.2
  | mk lk lv ll lr =>
    cases r with
    | NULL => exact h.2.2.1
    | mk rk rv rl rr => exact ordered_splice k v _ rk rv rl rr h

theorem eraseIdx_middle {β : Type} (pre post : List β) (x : β) :
    (pre ++ x :: post).eraseIdx pre.length = pre ++ post := by
  rw [List.eraseIdx_append_of_length_le (le_refl _)]
  simp

theorem inorder_store_at {α : Type} (n : bst_node α) :
    ∀ (path : List Bool) (k : Int) (v : α) (l r x : bst_node α),
      node_at n path = mk k v l r → inorder x = inorder l ++ inorder r →
      (inorder n)[inorder_pos n path]? = some (k, v) ∧
        inorder (store_at n path x) = (inorder n).eraseIdx (inorder_pos n path) := by
  induction n with
  | NULL => intro path k v l r x h; rw [node_at_NULL] at h; cases h
  | mk k0 v0 l0 r0 ihl ihr =>
    intro path k v l r x h hx
    cases path with
    | nil =>
      simp only [node_at] at h
      injection h with e1 e2 e3 e4
      subst e1 e2 e3 e4
      simp only [inorder, inorder_pos, store_at]
      refine ⟨?_, ?_⟩
      · rw [List.getElem?_append_right (le_refl _)]
        simp
      · rw [hx, eraseIdx_middle]
    | cons d rest =>
      cases d with
      | true =>
        simp only [node_at, if_true] at h
        obtain ⟨g, e⟩ := ihl rest k v l r x h hx
        have hlt : inorder_pos l0 rest < (inorder l0).length := by
          by_contra hc
          rw [List.getElem?_eq_none (by omega)] at g
          cases g
        simp only [inorder, inorder_pos, store_at, if_true]
        refine ⟨?_, ?_⟩
        · rw [List.getElem?_append_left hlt]
          exact g
        · rw [e, List.eraseIdx_append_of_lt_length hlt]
      | false =>
        simp [node_at] at h
        obtain ⟨g, e⟩ := ihr rest k v l r x h hx
        simp only [inorder, inorder_pos, store_at]
        simp only [Bool.false_eq_true, if_false]
        refine ⟨?_, ?_⟩
        · rw [List.getElem?_append_right (by omega)]
          have : (inorder l0).length + 1 + inorder_pos r0 rest - (inorder l0).length =
              inorder_pos r0 rest + 1 := by omega
          rw [this]
          simpa using g
        · rw [e, List.eraseIdx_append_of_length_le (by omega)]
          have : (inorder l0).length + 1 + inorder_pos r0 rest - (inorder l0).length =
              inorder_pos r0 rest + 1 := by omega
          rw [this]
          rfl

theorem ordered_store_at {α : Type} (n : bst_node α) :
    ∀ (path : List Bool) (k : Int) (v : α) (l r x : bst_node α),
      node_at n path = mk k v l r → bst_ordered n → bst_ordered x →
      (∀ y ∈ inorder x, y ∈ inorder (mk k v l r)) →
      bst_ordered (store_at n path x) ∧ ∀ y ∈ inorder (store_at n path x), y ∈ inorder n := by
  induction n with
  | NULL => intro path k v l r x h; rw [node_at_NULL] at h; cases h
  | mk k0 v0 l0 r0 ihl ihr =>
    intro path k v l r x h ho hx hsub
    cases path with
    | nil =>
      simp only [node_at] at h
      rw [h]
      exact ⟨hx, hsub⟩
    | cons d rest =>
      obtain ⟨h1, h2, h3, h4⟩ := ho
      cases d with
      | true =>
        simp only [node_at, if_true] at h
        obtain ⟨o, s⟩ := ihl rest k v l r x h h3 hx hsub
        simp only [store_at, if_true]
        refine ⟨⟨fun y hy => h1 y (s y hy), h2, o, h4⟩, ?_⟩
        intro y hy
        simp only [inorder, List.mem_append, List.mem_cons] at hy ⊢
        rcases hy with hy | hy | hy
        · exact Or.inl (s y hy)
        · exact Or.inr (Or.inl hy)
        · exact Or.inr (Or.inr hy)
      | false =>
        simp [node_at] at h
        obtain ⟨o, s⟩ := ihr rest k v l r x h h4 hx hsub
        simp only [store_at, Bool.false_eq_true, if_false]
        refine ⟨⟨h1, fun y hy => h2 y (s y hy), h3, o⟩, ?_⟩
        intro y hy
        simp only [inorder, List.mem_append, List.mem_cons] at hy ⊢
        rcases hy with hy | hy | hy
        · exact Or.inl hy
        · exact Or.inr (Or.inl hy)
        · exact Or.inr (Or.inr (s y hy))

theorem bst_remove_eq_store {α : Type} (t : bst α) (key : Int) (d1 d2 : Bool)
    (rest : List Bool) (k : Int) (v : α) (l r : bst_node α)
    (hs : remove_search t.root key = some (d1 :: d2 :: rest))
    (hn : node_at t.root (d1 :: d2 :: rest) = mk k v l r) :
    bst_remove t key =
      some ⟨store_at t.root (d1 :: d2 :: rest) (replacement (mk k v l r))⟩ := by
  unfold bst_remove
  rw [hs]
  simp only [hn]
  cases l with
  | NULL =>
    cases r with
    | NULL => rfl
    | mk rk rv rl rr => rfl
  | mk lk lv ll lr =>
    cases r with
    | NULL => rfl
    | mk rk rv rl rr => rfl

/-! ### The iterator walks the tree in pre-order -/

theorem check_node_eq_length {α : Type} (n : bst_node α) :
    check_node n = ((preorder n).length : Int) := by
  induction n with
  | NULL => rfl
  | mk k v l r ihl ihr =>
    simp only [check_node, preorder, List.length_cons, List.length_append, ihl, ihr]
    omega

theorem preorder_perm_inorder {α : Type} (n : bst_node α) :
    (preorder n).Perm (inorder n) := by
  induction n with
  | NULL => exact List.Perm.refl _
  | mk k v l r ihl ihr =>
    simp only [preorder, inorder]
    exact (List.Perm.cons _ (ihl.append ihr)).trans List.perm_middle.symm

theorem iterator_next_stack {α : Type} (k : Int) (v : α) (l r : bst_node α)
    (s : List (bst_node α)) (hs : ∀ n ∈ s, n ≠ NULL) :
    ∃ s1, bst_iterator_next ⟨mk k v l r :: s⟩ = some ((k, v), ⟨s1⟩) ∧
      (∀ n ∈ s1, n ≠ NULL) ∧
      preorder_stack s1 = preorder l ++ preorder r ++ preorder_stack s := by
  cases l with
  | NULL =>
    cases r with
    | NULL => exact ⟨s, rfl, hs, rfl⟩
    | mk rk rv rl rr =>
      refine ⟨mk rk rv rl rr :: s, rfl, ?_, rfl⟩
      intro n hn
      rcases List.mem_cons.1 hn with e | e
      · rw [e]
        exact fun c => by cases c
      · exact hs n e
  | mk lk lv ll lr =>
    cases r with
    | NULL =>
      refine ⟨mk lk lv ll lr :: s, rfl, ?_, by simp [preorder_stack, preorder]⟩
      intro n hn
      rcases List.mem_cons.1 hn with e | e
      · rw [e]
        exact fun c => by cases c
      · exact hs n e
    | mk rk rv rl rr =>
      refine ⟨mk lk lv ll lr :: mk rk rv rl rr :: s, rfl, ?_,
        by simp [preorder_stack, preorder]⟩
      intro n hn
      rcases List.mem_cons.1 hn with e | e
      · rw [e]
        exact fun c => by cases c
      · rcases List.mem_cons.1 e with e | e
        · rw [e]
          exact fun c => by cases c
        · exact hs n e

theorem drain_loop_preorder {α : Type} (fuel : Nat) :
    ∀ s : List (bst_node α), (∀ n ∈ s, n ≠ NULL) → (preorder_stack s).length < fuel →
      drain_loop fuel ⟨s⟩ = some (preorder_stack s) := by
  induction fuel with
  | zero => intro s _ h; omega
  | succ fuel ih =>
    intro s hs hf
    cases s with
    | nil => rfl
    | cons n s =>
      cases n with
      | NULL => exact absurd rfl (hs NULL (List.mem_cons_self _ _))
      | mk k v l r =>
        obtain ⟨s1, e1, n1, p1⟩ := iterator_next_stack k v l r s
          (fun n hn => hs n (List.mem_cons_of_mem _ hn))
        have hlen : (preorder_stack s1).length < fuel := by
          rw [p1]
          simp only [preorder_stack, preorder, List.length_cons, List.length_append] at hf ⊢
          omega
        unfold drain_loop
        have hh : bst_iterator_has_next (⟨mk k v l r :: s⟩ : bst_iterator α) ≠ 0 := by
          simp [bst_iterator_has_next, stack_isempty]
        rw [if_pos hh, e1]
        simp only [ih s1 n1 hlen, Option.map_some', p1]
        simp [preorder_stack, preorder]

theorem next_n_preorder {α : Type} (m : Nat) :
    ∀ s : List (bst_node α), (∀ n ∈ s, n ≠ NULL) → (preorder_stack s).length = m →
      next_n m ⟨s⟩ = some (preorder_stack s, ⟨[]⟩) := by
  induction m with
  | zero =>
    intro s hs hm
    cases s with
    | nil => rfl
    | cons n s =>
      cases n with
      | NULL => exact absurd rfl (hs NULL (List.mem_cons_self _ _))
      | mk k v l r => simp [preorder_stack, preorder] at hm
  | succ m ih =>
    intro s hs hm
    cases s with
    | nil => simp [preorder_stack] at hm
    | cons n s =>
      cases n with
      | NULL => exact absurd rfl (hs NULL (List.mem_cons_self _ _))
      | mk k v l r =>
        obtain ⟨s1, e1, n1, p1⟩ := iterator_next_stack k v l r s
          (fun n hn => hs n (List.mem_cons_of_mem _ hn))
        have hlen : (preorder_stack s1).length = m := by
          rw [p1]
          simp only [preorder_stack, preorder, List.length_cons, List.length_append] at hm ⊢
          omega
        unfold next_n
        have hh : bst_iterator_has_next (⟨mk k v l r :: s⟩ : bst_iterator α) = 1 := by
          simp [bst_iterator_has_next, stack_isempty]
        rw [if_pos hh, e1]
        simp only [ih s1 n1 hlen, p1]
        simp [preorder_stack, preorder]

/-! ### Claims about the binary search tree -/

/-- C4, evaluated on the code: after `bst_insert` of the keys 5, 3, 8, 1, 4 into an
empty tree, draining a freshly created iterator returns the keys in the order
5, 3, 1, 4, 8 (node before its subtrees), not 1, 3, 4, 5, 8. -/
theorem iterator_order_5_3_8_1_4 :
    drain (insert_all (bst_create : bst Nat) [(5, 50), (3, 30), (8, 80), (1, 10), (4, 40)]) =
      some [(5, 50), (3, 30), (1, 10), (4, 40), (8, 80)] := by
  decide

/-- C5, evaluated on the code: after insert 5, insert 3, remove 3 the call returns
and `bst_size` is 0, not 1: the removed leaf is a child of the root, the test
`p == bst->root` holds and the root link is cleared. -/
theorem size_after_insert_5_3_remove_3 :
    (bst_remove (insert_all (bst_create : bst Nat) [(5, 50), (3, 30)]) 3).map bst_size =
      some 0 := by
  decide

/-- C6, evaluated on the code: the tree built by inserting 5, 3, 8, 1, 4 satisfies the
ordering invariant and `bst_get` finds key 5 in it; after `bst_remove` of key 3 the
tree holds exactly the keys 1 and 4, and `bst_get` of 5 and of 8 reports absent. -/
theorem get_after_remove_3 :
    bst_ordered (insert_all (bst_create : bst Nat)
        [(5, 50), (3, 30), (8, 80), (1, 10), (4, 40)]).root ∧
      bst_get (insert_all (bst_create : bst Nat)
        [(5, 50), (3, 30), (8, 80), (1, 10), (4, 40)]) 5 = some 50 ∧
      (bst_remove (insert_all (bst_create : bst Nat)
        [(5, 50), (3, 30), (8, 80), (1, 10), (4, 40)]) 3).map
          (fun t => (inorder t.root, bst_get t 5, bst_get t 8)) =
        some ([(1, 10), (4, 40)], none, none) := by
  decide

/-- C7, evaluated on the code: `bst_remove` of the key of a root that is a leaf, and
of a root with exactly one child (left or right), dereferences `NULL` and returns
no tree. -/
theorem remove_root_with_fewer_than_two_children :
    bst_remove (insert_all (bst_create : bst Nat) [(5, 50)]) 5 = none ∧
      bst_remove (insert_all (bst_create : bst Nat) [(5, 50), (8, 80)]) 5 = none ∧
      bst_remove (insert_all (bst_create : bst Nat) [(5, 50), (3, 30)]) 5 = none := by
  decide

/-- C8: for every tree satisfying the ordering invariant whose root has two children,
`bst_remove` of the root key returns; the new root carries the key and value of the
leftmost node of the old root's right subtree (the first pair of that subtree's
in-order sequence) and keeps the old left subtree; the in-order sequence of the
result is the original sequence with the old root's pair deleted; and the result
satisfies the ordering invariant. -/
theorem bst_remove_root_two_children {α : Type} (k : Int) (v : α) (l r : bst_node α)
    (hl : l ≠ NULL) (hr : r ≠ NULL) (h : bst_ordered (mk k v l r)) :
    ∃ sk sv r1, bst_remove ⟨mk k v l r⟩ k = some ⟨mk sk sv l r1⟩ ∧
      (inorder r).head? = some (sk, sv) ∧
      inorder (mk sk sv l r1) = (inorder (mk k v l r)).eraseIdx (inorder l).length ∧
      bst_ordered (mk sk sv l r1) := by
  cases l with
  | NULL => exact absurd rfl hl
  | mk lk lv ll lr =>
    cases r with
    | NULL => exact absurd rfl hr
    | mk rk rv rl rr =>
      obtain ⟨h1, h2, h3, h4⟩ := h
      have hd := inorder_detach rl rk rv rr
      refine ⟨(successor rk rv rl).1, (successor rk rv rl).2, detach (mk rk rv rl rr),
        ?_, ?_, ?_, ?_⟩
      · simp [bst_remove, remove_search, node_at, relink, splice_eq]
      · rw [hd]
        rfl
      · have e1 : inorder (mk (successor rk rv rl).1 (successor rk rv rl).2
            (mk lk lv ll lr) (detach (mk rk rv rl rr))) =
            inorder (mk lk lv ll lr) ++ inorder (mk rk rv rl rr) := by
          rw [hd]
          rfl
        rw [e1]
        have e2 : inorder (mk k v (mk lk lv ll lr) (mk rk rv rl rr)) =
            inorder (mk lk lv ll lr) ++ (k, v) :: inorder (mk rk rv rl rr) := rfl
        rw [e2, List.eraseIdx_append_of_length_le (le_refl _)]
        simp
      · have hmem : successor rk rv rl ∈ inorder (mk rk rv rl rr) := by
          rw [hd]
          exact List.mem_cons_self _ _
        have hks := h2 _ hmem
        refine ⟨?_, successor_le_detach rk rv rl rr h4, h3, ordered_detach _ h4⟩
        intro x hx
        have := h1 x hx
        omega

/-- C8 at a concrete tree: removing the root 5 of the tree built from 5, 3, 8, 7. -/
theorem bst_remove_root_two_children_witness :
    ∃ sk sv r1,
      bst_remove (⟨mk 5 50 (mk 3 30 NULL NULL) (mk 8 80 (mk 7 70 NULL NULL) NULL)⟩ : bst Nat) 5 =
        some ⟨mk sk sv (mk 3 30 NULL NULL) r1⟩ ∧
      (inorder (mk 8 80 (mk 7 70 NULL NULL) NULL : bst_node Nat)).head? = some (sk, sv) ∧
      inorder (mk sk sv (mk 3 30 NULL NULL) r1) =
        (inorder (mk 5 50 (mk 3 30 NULL NULL) (mk 8 80 (mk 7 70 NULL NULL) NULL) :
          bst_node Nat)).eraseIdx (inorder (mk 3 30 NULL NULL : bst_node Nat)).length ∧
      bst_ordered (mk sk sv (mk 3 30 NULL NULL) r1) :=
  bst_remove_root_two_children 5 50 (mk 3 30 NULL NULL) (mk 8 80 (mk 7 70 NULL NULL) NULL)
    (by decide) (by decide) (by decide)

/-- C9: `bst_insert` preserves the ordering invariant. For every tree in which every
node has all left-subtree keys `<` its key and all right-subtree keys `>=` its key
(the empty tree included) and every key and value, the tree after `bst_insert`
satisfies the same invariant and holds exactly the old `(key, value)` pairs plus
the new one. -/
theorem bst_insert_preserves_order {α : Type} (t : bst α) (key : Int) (value : α)
    (h : bst_ordered t.root) :
    bst_ordered (bst_insert t key value).root ∧
      (inorder (bst_insert t key value).root).Perm ((key, value) :: inorder t.root) :=
  ⟨ordered_insert t.root key value h, inorder_insert_perm t.root key value⟩

/-- C9 at a concrete tree: inserting key 4 into the tree built from 5, 3, 8. -/
theorem bst_insert_preserves_order_witness :
    bst_ordered (⟨mk 5 50 (mk 3 30 NULL NULL) (mk 8 80 NULL NULL)⟩ : bst Nat).root ∧
      bst_ordered
        (bst_insert (⟨mk 5 50 (mk 3 30 NULL NULL) (mk 8 80 NULL NULL)⟩ : bst Nat) 4 40).root ∧
      (inorder
        (bst_insert (⟨mk 5 50 (mk 3 30 NULL NULL) (mk 8 80 NULL NULL)⟩ : bst Nat) 4 40).root).Perm
        ((4, 40) ::
          inorder (⟨mk 5 50 (mk 3 30 NULL NULL) (mk 8 80 NULL NULL)⟩ : bst Nat).root) :=
  ⟨by decide,
    bst_insert_preserves_order ⟨mk 5 50 (mk 3 30 NULL NULL) (mk 8 80 NULL NULL)⟩ 4 40
      (by decide)⟩

/-- C10: round trip. For every tree `m` none of whose nodes has key `K` and every value
`V`, `bst_get` of `K` after `bst_insert` of `(K, V)` returns `V`, and it still returns
`V` after any further sequence of `bst_insert` calls, whatever their keys (`K`
included). -/
theorem bst_get_after_insert {α : Type} (m : bst α) (K : Int) (V : α)
    (h : ∀ x ∈ inorder m.root, x.1 ≠ K) (more : List (Int × α)) :
    bst_get (bst_insert m K V) K = some V ∧
      bst_get (insert_all (bst_insert m K V) more) K = some V := by
  have h1 : bst_get (bst_insert m K V) K = some V := by
    unfold bst_get find_node bst_insert
    simp only [find_from_insert_new m.root K V (find_from_absent m.root K h)]
    rfl
  exact ⟨h1, bst_get_insert_all more _ K V h1⟩

/-- C10 at a concrete tree: key 4 inserted into the tree built from 5, 3, with further
inserts of the keys 4 and 1. -/
theorem bst_get_after_insert_witness :
    (∀ x ∈ inorder (⟨mk 5 50 (mk 3 30 NULL NULL) NULL⟩ : bst Nat).root, x.1 ≠ 4) ∧
      bst_get (bst_insert (⟨mk 5 50 (mk 3 30 NULL NULL) NULL⟩ : bst Nat) 4 40) 4 = some 40 ∧
      bst_get (insert_all (bst_insert (⟨mk 5 50 (mk 3 30 NULL NULL) NULL⟩ : bst Nat) 4 40)
        [(4, 41), (1, 10)]) 4 = some 40 :=
  ⟨by decide,
    bst_get_after_insert ⟨mk 5 50 (mk 3 30 NULL NULL) NULL⟩ 4 40 (by decide)
      [(4, 41), (1, 10)]⟩

/-- C11: for every tree satisfying the ordering invariant and every key `K`,
`find_node` returns a node if and only if some node of the tree has key `K`. When it
returns `NULL`, `bst_get` returns the not-found indicator. When it returns a node,
that node has key `K`, `bst_get` returns its value, and it is the node with key `K`
closest to the root: every node with key `K` is that node or lies below its right
link. -/
theorem find_node_closest_to_root {α : Type} (t : bst α) (K : Int)
    (h : bst_ordered t.root) :
    (find_node t K ≠ NULL ↔ ∃ x ∈ inorder t.root, x.1 = K) ∧
      (find_node t K = NULL → bst_get t K = none) ∧
      (∀ (fk : Int) (fv : α) (fl fr : bst_node α), find_node t K = mk fk fv fl fr →
        fk = K ∧ bst_get t K = some fv ∧
        ∃ path, node_at t.root path = mk fk fv fl fr ∧
          ∀ (p : List Bool) (v : α) (l r : bst_node α), node_at t.root p = mk K v l r →
            p = path ∨ ∃ rest, p = path ++ false :: rest) := by
  refine ⟨⟨?_, ?_⟩, ?_, ?_⟩
  · intro hne
    cases hf : find_node t K with
    | NULL => exact absurd hf hne
    | mk fk fv fl fr =>
      obtain ⟨e, path, _, hn⟩ := (remove_search_of_find t.root K).2 fk fv fl fr hf
      exact ⟨(fk, fv), node_at_mem t.root path fk fv fl fr hn, e⟩
  · intro hx hnull
    obtain ⟨x, hx1, hx2⟩ := hx
    exact find_from_NULL_no_key t.root K h hnull x hx1 hx2
  · intro hnull
    unfold bst_get
    rw [hnull]
  · intro fk fv fl fr hf
    obtain ⟨e, path, hs, hn⟩ := (remove_search_of_find t.root K).2 fk fv fl fr hf
    refine ⟨e, ?_, path, hn, remove_search_closest t.root K h path hs⟩
    unfold bst_get
    rw [hf]

/-- C11 at a concrete tree: key 5 in the tree built from 5, 3, 5, 8, which holds the
key twice. -/
theorem find_node_closest_to_root_witness :
    (find_node (insert_all (bst_create : bst Nat) [(5, 50), (3, 30), (5, 51), (8, 80)]) 5 ≠
        NULL ↔
      ∃ x ∈ inorder
        (insert_all (bst_create : bst Nat) [(5, 50), (3, 30), (5, 51), (8, 80)]).root,
        x.1 = 5) ∧
      (find_node (insert_all (bst_create : bst Nat) [(5, 50), (3, 30), (5, 51), (8, 80)]) 5 =
          NULL →
        bst_get (insert_all (bst_create : bst Nat) [(5, 50), (3, 30), (5, 51), (8, 80)]) 5 =
          none) ∧
      (∀ (fk : Int) (fv : Nat) (fl fr : bst_node Nat),
        find_node (insert_all (bst_create : bst Nat) [(5, 50), (3, 30), (5, 51), (8, 80)]) 5 =
          mk fk fv fl fr →
        fk = 5 ∧
        bst_get (insert_all (bst_create : bst Nat) [(5, 50), (3, 30), (5, 51), (8, 80)]) 5 =
          some fv ∧
        ∃ path,
          node_at
            (insert_all (bst_create : bst Nat) [(5, 50), (3, 30), (5, 51), (8, 80)]).root
            path = mk fk fv fl fr ∧
          ∀ (p : List Bool) (v : Nat) (l r : bst_node Nat),
            node_at
              (insert_all (bst_create : bst Nat) [(5, 50), (3, 30), (5, 51), (8, 80)]).root
              p = mk 5 v l r →
            p = path ∨ ∃ rest, p = path ++ false :: rest) :=
  find_node_closest_to_root
    (insert_all (bst_create : bst Nat) [(5, 50), (3, 30), (5, 51), (8, 80)]) 5 (by decide)

/-- C12: inserting never changes what `find_node` finds for a key that is already
present. For every tree `m`, keys `K` and `K'` and value `V`, if `find_node` of `K'`
returns a node, then after `bst_insert` of `(K, V)` it returns the node at the same
place with the same key and value, and `bst_get` of `K'` is unchanged; when `K = K'`
the new node is stored strictly below the right link of that node, so deeper. -/
theorem find_node_unchanged_by_insert {α : Type} (m : bst α) (K K' : Int) (V : α)
    (fk : Int) (fv : α) (fl fr : bst_node α) (h : find_node m K' = mk fk fv fl fr) :
    ∃ path fl1 fr1, node_at m.root path = mk fk fv fl fr ∧
      find_node (bst_insert m K V) K' = mk fk fv fl1 fr1 ∧
      node_at (bst_insert m K V).root path = mk fk fv fl1 fr1 ∧
      bst_get (bst_insert m K V) K' = bst_get m K' ∧
      (K = K' → ∃ rest, insert_path m.root K = path ++ false :: rest ∧
        node_at (bst_insert m K V).root (insert_path m.root K) = create_node K V) := by
  obtain ⟨e, path, hs, hn⟩ := (remove_search_of_find m.root K').2 fk fv fl fr h
  subst e
  obtain ⟨hs1, ⟨gv, gl, gr, gl1, gr1, g1, g2⟩, hdeep⟩ :=
    remove_search_insert m.root fk K V path hs
  rw [hn] at g1
  injection g1 with _ e2 _ _
  subst e2
  obtain ⟨nv, nl, nr, hn1, hf1⟩ := find_of_remove_search (insert_node m.root K V) fk path hs1
  rw [g2] at hn1
  injection hn1 with _ e2 e3 e4
  subst e2 e3 e4
  have hfind : find_node (bst_insert m K V) fk = mk fk fv gl1 gr1 := hf1
  refine ⟨path, gl1, gr1, hn, hfind, g2, ?_, ?_⟩
  · unfold bst_get
    rw [hfind, h]
  · intro e
    obtain ⟨rest, hrest⟩ := hdeep e
    exact ⟨rest, hrest, node_at_insert_path m.root K V⟩

/-- C12 at a concrete tree: a second insert of key 3 into the tree built from 5, 3, 4. -/
theorem find_node_unchanged_by_insert_witness :
    ∃ path fl1 fr1,
      node_at (⟨mk 5 50 (mk 3 30 NULL (mk 4 40 NULL NULL)) NULL⟩ : bst Nat).root path =
        mk 3 30 NULL (mk 4 40 NULL NULL) ∧
      find_node (bst_insert (⟨mk 5 50 (mk 3 30 NULL (mk 4 40 NULL NULL)) NULL⟩ : bst Nat) 3 31)
        3 = mk 3 30 fl1 fr1 ∧
      node_at
        (bst_insert (⟨mk 5 50 (mk 3 30 NULL (mk 4 40 NULL NULL)) NULL⟩ : bst Nat) 3 31).root
        path = mk 3 30 fl1 fr1 ∧
      bst_get (bst_insert (⟨mk 5 50 (mk 3 30 NULL (mk 4 40 NULL NULL)) NULL⟩ : bst Nat) 3 31)
        3 = bst_get (⟨mk 5 50 (mk 3 30 NULL (mk 4 40 NULL NULL)) NULL⟩ : bst Nat) 3 ∧
      ((3 : Int) = 3 → ∃ rest,
        insert_path (⟨mk 5 50 (mk 3 30 NULL (mk 4 40 NULL NULL)) NULL⟩ : bst Nat).root 3 =
          path ++ false :: rest ∧
        node_at
          (bst_insert (⟨mk 5 50 (mk 3 30 NULL (mk 4 40 NULL NULL)) NULL⟩ : bst Nat) 3 31).root
          (insert_path (⟨mk 5 50 (mk 3 30 NULL (mk 4 40 NULL NULL)) NULL⟩ : bst Nat).root 3) =
          create_node 3 31) :=
  find_node_unchanged_by_insert ⟨mk 5 50 (mk 3 30 NULL (mk 4 40 NULL NULL)) NULL⟩ 3 3 31
    3 30 NULL (mk 4 40 NULL NULL) (by decide)

/-- C13, evaluated on the code: for the empty tree `bst_iterator_create` pushes the
`NULL` root, so the stack holds one element, `bst_iterator_has_next` returns 1 and
not 0, and the `bst_iterator_next` that a caller then makes dereferences `NULL`. -/
theorem iterator_on_empty_tree :
    (bst_iterator_create (bst_create : bst Nat)).stack = [NULL] ∧
      bst_iterator_has_next (bst_iterator_create (bst_create : bst Nat)) = 1 ∧
      bst_iterator_next (bst_iterator_create (bst_create : bst Nat)) = none := by
  decide

/-- C17: for every tree and every key `K` for which `find_node` reports not-found (every
key on the empty tree included), `bst_remove` faults: the search loop ends with
`n == NULL`, the next step dereferences it, and no tree is returned. -/
theorem bst_remove_absent_key_faults {α : Type} (t : bst α) (K : Int)
    (h : find_node t K = NULL) : bst_remove t K = none := by
  unfold bst_remove
  rw [(remove_search_of_find t.root K).1 h]

/-- C17 at concrete trees: key 4 in the tree built from 5, 3. -/
theorem bst_remove_absent_key_faults_witness :
    find_node (⟨mk 5 50 (mk 3 30 NULL NULL) NULL⟩ : bst Nat) 4 = NULL ∧
      bst_remove (⟨mk 5 50 (mk 3 30 NULL NULL) NULL⟩ : bst Nat) 4 = none :=
  ⟨by decide, bst_remove_absent_key_faults ⟨mk 5 50 (mk 3 30 NULL NULL) NULL⟩ 4 (by decide)⟩

/-- C18: for every tree satisfying the ordering invariant and every key `K` whose
shallowest matching node `n` (the one the search loop stops on) lies at depth 2 or
more, `bst_remove` returns a tree, whatever the shape of `n` (leaf, one child, two
children): its in-order sequence is the original one with the pair of `n`, at the
position of `n`, deleted; the root keeps its key and value; and the ordering
invariant holds. -/
theorem bst_remove_below_root_children {α : Type} (t : bst α) (K : Int)
    (path : List Bool) (h : bst_ordered t.root)
    (hs : remove_search t.root K = some path) (hd : 2 ≤ path.length) :
    ∃ (t1 : bst α) (nv : α) (nl nr : bst_node α) (rk : Int) (rv : α)
      (rl rr rl1 rr1 : bst_node α),
      node_at t.root path = mk K nv nl nr ∧ find_node t K = mk K nv nl nr ∧
      bst_remove t K = some t1 ∧
      (inorder t.root)[inorder_pos t.root path]? = some (K, nv) ∧
      inorder t1.root = (inorder t.root).eraseIdx (inorder_pos t.root path) ∧
      t.root = mk rk rv rl rr ∧ t1.root = mk rk rv rl1 rr1 ∧
      bst_ordered t1.root := by
  obtain ⟨root⟩ := t
  cases root with
  | NULL => simp [remove_search] at hs
  | mk rk rv rl rr =>
    obtain ⟨nv, nl, nr, hn, hf⟩ := find_of_remove_search (mk rk rv rl rr) K path hs
    match path, hd, hs, hn with
    | d1 :: d2 :: rest, _, hs, hn =>
      have hrem := bst_remove_eq_store ⟨mk rk rv rl rr⟩ K d1 d2 rest K nv nl nr hs hn
      obtain ⟨g, e⟩ := inorder_store_at (mk rk rv rl rr) (d1 :: d2 :: rest) K nv nl nr
        (replacement (mk K nv nl nr)) hn (inorder_replacement K nv nl nr)
      have hsub : ∀ y ∈ inorder (replacement (mk K nv nl nr)),
          y ∈ inorder (mk K nv nl nr) := by
        intro y hy
        rw [inorder_replacement] at hy
        simp only [inorder, List.mem_append, List.mem_cons]
        rcases List.mem_append.1 hy with hy | hy
        · exact Or.inl hy
        · exact Or.inr (Or.inr hy)
      have hon : bst_ordered (mk K nv nl nr) := by
        rw [← hn]
        exact ordered_node_at (mk rk rv rl rr) _ h
      obtain ⟨o, _⟩ := ordered_store_at (mk rk rv rl rr) (d1 :: d2 :: rest) K nv nl nr
        (replacement (mk K nv nl nr)) hn h (ordered_replacement K nv nl nr hon) hsub
      cases d1 with
      | true =>
        exact ⟨_, nv, nl, nr, rk, rv, rl, rr, _, _, hn, hf, hrem, g, e, rfl, rfl, o⟩
      | false =>
        exact ⟨_, nv, nl, nr, rk, rv, rl, rr, _, _, hn, hf, hrem, g, e, rfl, rfl, o⟩

/-- C18 at a concrete tree: removing key 3, a node with two children at depth 2 of the
tree built from 10, 5, 15, 3, 2, 4. -/
theorem bst_remove_below_root_children_witness :
    ∃ (t1 : bst Nat) (nv : Nat) (nl nr : bst_node Nat) (rk : Int) (rv : Nat)
      (rl rr rl1 rr1 : bst_node Nat),
      node_at (insert_all (bst_create : bst Nat)
          [(10, 1), (5, 2), (15, 3), (3, 4), (2, 5), (4, 6)]).root [true, true] =
        mk 3 nv nl nr ∧
      find_node (insert_all (bst_create : bst Nat)
          [(10, 1), (5, 2), (15, 3), (3, 4), (2, 5), (4, 6)]) 3 = mk 3 nv nl nr ∧
      bst_remove (insert_all (bst_create : bst Nat)
          [(10, 1), (5, 2), (15, 3), (3, 4), (2, 5), (4, 6)]) 3 = some t1 ∧
      (inorder (insert_all (bst_create : bst Nat)
          [(10, 1), (5, 2), (15, 3), (3, 4), (2, 5), (4, 6)]).root)[inorder_pos
            (insert_all (bst_create : bst Nat)
              [(10, 1), (5, 2), (15, 3), (3, 4), (2, 5), (4, 6)]).root [true, true]]? =
        some (3, nv) ∧
      inorder t1.root =
        (inorder (insert_all (bst_create : bst Nat)
          [(10, 1), (5, 2), (15, 3), (3, 4), (2, 5), (4, 6)]).root).eraseIdx
          (inorder_pos (insert_all (bst_create : bst Nat)
            [(10, 1), (5, 2), (15, 3), (3, 4), (2, 5), (4, 6)]).root [true, true]) ∧
      (insert_all (bst_create : bst Nat)
          [(10, 1), (5, 2), (15, 3), (3, 4), (2, 5), (4, 6)]).root = mk rk rv rl rr ∧
      t1.root = mk rk rv rl1 rr1 ∧
      bst_ordered t1.root :=
  bst_remove_below_root_children
    (insert_all (bst_create : bst Nat) [(10, 1), (5, 2), (15, 3), (3, 4), (2, 5), (4, 6)])
    3 [true, true] (by decide) (by decide) (by decide)

/-- C19: for every non-empty tree, exactly `bst_size` calls of `bst_iterator_next` on a
freshly created iterator, each made after `bst_iterator_has_next` returned 1, return
the `(key, value)` pairs of the tree in pre-order (node, whole left subtree, whole
right subtree) and leave the stack empty, where `bst_iterator_has_next` returns 0;
the drain loop returns the same sequence; its length is `bst_size`; and it is a
permutation of the in-order sequence, so every node appears exactly once. -/
theorem iterator_visits_in_preorder {α : Type} (t : bst α) (hne : t.root ≠ NULL) :
    next_n (bst_size t).toNat (bst_iterator_create t) = some (preorder t.root, ⟨[]⟩) ∧
      bst_iterator_has_next (⟨[]⟩ : bst_iterator α) = 0 ∧
      drain t = some (preorder t.root) ∧
      ((preorder t.root).length : Int) = bst_size t ∧
      (preorder t.root).Perm (inorder t.root) := by
  have hsz : (bst_size t).toNat = (preorder t.root).length := by
    unfold bst_size
    rw [check_node_eq_length, Int.toNat_ofNat]
  have hst : preorder_stack [t.root] = preorder t.root := by
    simp [preorder_stack]
  have hnn : ∀ n ∈ [t.root], n ≠ NULL := by
    intro n hn
    rw [List.mem_singleton.1 hn]
    exact hne
  refine ⟨?_, rfl, ?_, ?_, preorder_perm_inorder t.root⟩
  · have := next_n_preorder (preorder t.root).length [t.root] hnn (by rw [hst])
    rw [hst] at this
    rw [hsz]
    exact this
  · have := drain_loop_preorder ((preorder t.root).length + 1) [t.root] hnn
      (by rw [hst]; omega)
    rw [hst] at this
    unfold drain
    rw [hsz]
    exact this
  · unfold bst_size
    rw [check_node_eq_length]

/-- C19 at a concrete tree: the tree built from 5, 3, 8, 1, 4. -/
theorem iterator_visits_in_preorder_witness :
    next_n (bst_size (insert_all (bst_create : bst Nat)
          [(5, 50), (3, 30), (8, 80), (1, 10), (4, 40)])).toNat
        (bst_iterator_create (insert_all (bst_create : bst Nat)
          [(5, 50), (3, 30), (8, 80), (1, 10), (4, 40)])) =
        some (preorder (insert_all (bst_create : bst Nat)
          [(5, 50), (3, 30), (8, 80), (1, 10), (4, 40)]).root, ⟨[]⟩) ∧
      bst_iterator_has_next (⟨[]⟩ : bst_iterator Nat) = 0 ∧
      drain (insert_all (bst_create : bst Nat)
          [(5, 50), (3, 30), (8, 80), (1, 10), (4, 40)]) =
        some (preorder (insert_all (bst_create : bst Nat)
          [(5, 50), (3, 30), (8, 80), (1, 10), (4, 40)]).root) ∧
      ((preorder (insert_all (bst_create : bst Nat)
          [(5, 50), (3, 30), (8, 80), (1, 10), (4, 40)]).root).length : Int) =
        bst_size (insert_all (bst_create : bst Nat)
          [(5, 50), (3, 30), (8, 80), (1, 10), (4, 40)]) ∧
      (preorder (insert_all (bst_create : bst Nat)
          [(5, 50), (3, 30), (8, 80), (1, 10), (4, 40)]).root).Perm
        (inorder (insert_all (bst_create : bst Nat)
          [(5, 50), (3, 30), (8, 80), (1, 10), (4, 40)]).root) :=
  iterator_visits_in_preorder
    (insert_all (bst_create : bst Nat) [(5, 50), (3, 30), (8, 80), (1, 10), (4, 40)])
    (by decide)

end BST
